import Mathlib

/-!
Shallow embedding of the swhkd hotkey-configuration parser core
(`src/lib.rs`, `src/token.rs`, `src/range.rs`, `src/evdev_mappings.rs`).

The pest grammar itself (`template.pest`) is not part of the sources;
the embedding therefore takes the parse tree (the stream of typed pairs
that the semantic functions of `lib.rs` consume) as its input language.
Every semantic function of `lib.rs` is translated here: `unescape`,
`parse_key`, `DefinitionUncompiled::{ingest, compile}`, the range
expansion of `range.rs`, `binding_parser`, `unbind_parser`,
`mode_parser`, `import_parser`, the import loop of
`SwhkdParser::as_import` and the final override/unbind resolution of
`SwhkdParser::from`.

Rust process aborts (`assert!`, `panic!`, `expect`) are modelled as a
distinguished `ParseErr.panicked` error value so that they remain
observable and distinct from returned errors.  Machine integers do not
occur on the paths modelled here; file reading is modelled as lookup in
an association list from path strings to file contents (already parsed
into declaration lists).  The recursive import resolution is modelled
with an explicit fuel parameter; termination is then proved as a
theorem (sufficient fuel always exists).
-/

namespace Swhkd

/-- `token.rs`: the closed modifier enumeration, in source declaration
order (the derived `Ord` on the Rust enum orders by declaration). -/
inductive Modifier where
  | Super
  | Alt
  | Altgr
  | Control
  | Shift
  | Any
  | Omission
deriving DecidableEq, Repr

/-- Declaration-order index, mirroring the derived `Ord` instance. -/
def Modifier.toNat : Modifier → Nat
  | .Super => 0
  | .Alt => 1
  | .Altgr => 2
  | .Control => 3
  | .Shift => 4
  | .Any => 5
  | .Omission => 6

/-- `token.rs`: `KeyAttribute` bitflags with the two independent flags
`Send` (`0b01`) and `OnRelease` (`0b10`). -/
structure KeyAttribute where
  send : Bool
  onRelease : Bool
deriving DecidableEq, Repr

/-- The empty bitset `KeyAttribute::None`. -/
def KeyAttribute.none : KeyAttribute := ⟨false, false⟩

/-- `attribute |= KeyAttribute::Send`. -/
def KeyAttribute.orSend (a : KeyAttribute) : KeyAttribute := { a with send := true }

/-- `attribute |= KeyAttribute::OnRelease`. -/
def KeyAttribute.orOnRelease (a : KeyAttribute) : KeyAttribute := { a with onRelease := true }

/-- `token.rs`: a resolved key: the evdev key identifier (kept as the
identifier string, e.g. `"KEY_A"`; the evdev table is an injected
mapping whose values are opaque identifiers compared by equality)
together with its timing attribute. -/
structure Key where
  code : String
  attr : KeyAttribute
deriving DecidableEq, Repr

/-- `token.rs`: an unresolved key: the textual key name plus the
attribute bitset collected from its prefixes. -/
structure KeyRepr where
  key : String
  attr : KeyAttribute
deriving DecidableEq, Repr

/-- A `BTreeSet<Modifier>` is modelled as its sorted, duplicate-free
iteration order; insertion keeps the canonical form. -/
abbrev ModSet := List Modifier

/-- Ordered-set insertion (`BTreeSet::insert`): no effect when the
element is already present. -/
def ModSet.insert (m : Modifier) : ModSet → ModSet
  | [] => [m]
  | x :: xs =>
    if m.toNat = x.toNat then x :: xs
    else if m.toNat < x.toNat then m :: x :: xs
    else x :: ModSet.insert m xs

/-- `collect::<BTreeSet<_>>()` over a list of modifiers. -/
def ModSet.ofList (l : List Modifier) : ModSet :=
  l.foldl (fun s m => ModSet.insert m s) []

/-- `BTreeSet::remove`: drop the element if present. -/
def ModSet.erase (m : Modifier) (s : ModSet) : ModSet :=
  List.filter (fun x => x ≠ m) s

/-- `lib.rs`: the left-hand side of a binding. -/
structure Definition where
  modifiers : ModSet
  key : Key
deriving DecidableEq, Repr

/-- `lib.rs`: mode instructions attached to a binding. -/
inductive ModeInstruction where
  | enter (name : String)
  | escape
deriving DecidableEq, Repr

/-- `lib.rs`: a fully compiled binding. -/
structure Binding where
  definition : Definition
  command : String
  mode_instructions : List ModeInstruction
deriving DecidableEq, Repr

/-- `lib.rs`: a named mode block. -/
structure Mode where
  name : String
  oneoff : Bool
  swallow : Bool
  bindings : List Binding
  unbinds : List Definition
deriving DecidableEq, Repr

/-- `lib.rs`: the parser result (`SwhkdParser`). `imports` is the
`BTreeSet<String>` in its sorted iteration order. -/
structure Config where
  bindings : List Binding
  unbinds : List Definition
  imports : List String
  modes : List Mode
deriving DecidableEq, Repr

/-- `lib.rs`: externally observable failures.  `panicked` models Rust
process aborts (`assert!` / `panic!` / `expect`), which are not
`ParseError` values but are observable and fatal. -/
inductive ParseErr where
  | grammar (msg : String) (span : String)
  | mainSection
  | readError (path : String)
  | invalidKey (key : String)
  | panicked (msg : String)
deriving DecidableEq, Repr

/-- `evdev_mappings.rs`: the static key-name table (values are the
evdev key identifiers). -/
def KEY_MAP : List (String × String) :=
  [("q", "KEY_Q"), ("w", "KEY_W"), ("e", "KEY_E"), ("r", "KEY_R"),
   ("t", "KEY_T"), ("y", "KEY_Y"), ("u", "KEY_U"), ("i", "KEY_I"),
   ("o", "KEY_O"), ("p", "KEY_P"), ("a", "KEY_A"), ("s", "KEY_S"),
   ("d", "KEY_D"), ("f", "KEY_F"), ("g", "KEY_G"), ("h", "KEY_H"),
   ("j", "KEY_J"), ("k", "KEY_K"), ("l", "KEY_L"), ("z", "KEY_Z"),
   ("x", "KEY_X"), ("c", "KEY_C"), ("v", "KEY_V"), ("b", "KEY_B"),
   ("n", "KEY_N"), ("m", "KEY_M"),
   ("1", "KEY_1"), ("2", "KEY_2"), ("3", "KEY_3"), ("4", "KEY_4"),
   ("5", "KEY_5"), ("6", "KEY_6"), ("7", "KEY_7"), ("8", "KEY_8"),
   ("9", "KEY_9"), ("0", "KEY_0"),
   ("escape", "KEY_ESC"), ("backspace", "KEY_BACKSPACE"),
   ("capslock", "KEY_CAPSLOCK"), ("return", "KEY_ENTER"),
   ("enter", "KEY_ENTER"), ("tab", "KEY_TAB"), ("space", "KEY_SPACE"),
   ("plus", "KEY_KPPLUS"), ("minus", "KEY_MINUS"), ("-", "KEY_MINUS"),
   ("equal", "KEY_EQUAL"), ("=", "KEY_EQUAL"), ("grave", "KEY_GRAVE"),
   ("`", "KEY_GRAVE"), ("print", "KEY_SYSRQ"),
   ("volumeup", "KEY_VOLUMEUP"), ("volumedown", "KEY_VOLUMEDOWN"),
   ("mute", "KEY_MUTE"), ("brightnessup", "KEY_BRIGHTNESSUP"),
   ("brightnessdown", "KEY_BRIGHTNESSDOWN"), ("comma", "KEY_COMMA"),
   (",", "KEY_COMMA"), ("dot", "KEY_DOT"), ("period", "KEY_DOT"),
   (".", "KEY_DOT"), ("slash", "KEY_SLASH"), ("/", "KEY_SLASH"),
   ("backslash", "KEY_BACKSLASH"), ("\\", "KEY_BACKSLASH"),
   ("leftbrace", "KEY_LEFTBRACE"), ("[", "KEY_LEFTBRACE"),
   ("rightbrace", "KEY_RIGHTBRACE"), ("]", "KEY_RIGHTBRACE"),
   ("semicolon", "KEY_SEMICOLON"), (";", "KEY_SEMICOLON"),
   ("apostrophe", "KEY_APOSTROPHE"), ("'", "KEY_APOSTROPHE"),
   ("left", "KEY_LEFT"), ("right", "KEY_RIGHT"), ("up", "KEY_UP"),
   ("down", "KEY_DOWN"), ("pause", "KEY_PAUSE"), ("home", "KEY_HOME"),
   ("delete", "KEY_DELETE"), ("insert", "KEY_INSERT"), ("end", "KEY_END"),
   ("pagedown", "KEY_PAGEDOWN"), ("pageup", "KEY_PAGEUP"),
   ("f1", "KEY_F1"), ("f2", "KEY_F2"), ("f3", "KEY_F3"), ("f4", "KEY_F4"),
   ("f5", "KEY_F5"), ("f6", "KEY_F6"), ("f7", "KEY_F7"), ("f8", "KEY_F8"),
   ("f9", "KEY_F9"), ("f10", "KEY_F10"), ("f11", "KEY_F11"),
   ("f12", "KEY_F12")]

/-- ASCII lowercasing as `str::to_lowercase` behaves on the
identifiers involved, written on the character list so that it
evaluates by kernel reduction. -/
def lowerStr (s : String) : String := ⟨s.data.map Char.toLower⟩

/-- `evdev_mappings::convert`: table lookup, `InvalidKey` on a miss. -/
def convert (s : String) : Except ParseErr String :=
  match (KEY_MAP.find? (fun kv => kv.1 = s)) with
  | some kv => .ok kv.2
  | none => .error (.invalidKey s)

/-- `lib.rs` `unescape`: if the string is exactly a backslash followed
by one character, assert that the character is one of the escapable
set and return the one-character suffix; any other string is returned
unchanged.  A failing assertion is a process abort. -/
def unescape (s : String) : Except ParseErr String :=
  match s.toList with
  | [c₁, ch] =>
    if c₁ = '\\' then
      if ch ∈ ['{', '}', ',', '\\', '-', '+', '~', '@'] then
        .ok (String.singleton ch)
      else
        .error (.panicked "unescape: assertion failed on escaped character")
    else
      .ok s
  | _ => .ok s

/-- `token.rs` `From<ModifierRepr> for Modifier`: lowercase, then map
through the alias table; an unknown name is a `panic!`. -/
def modifierOfRepr (s : String) : Except ParseErr Modifier :=
  match (lowerStr s) with
  | "ctrl" => .ok .Control
  | "control" => .ok .Control
  | "super" => .ok .Super
  | "mod4" => .ok .Super
  | "meta" => .ok .Super
  | "alt" => .ok .Alt
  | "mod1" => .ok .Alt
  | "altgr" => .ok .Altgr
  | "mod5" => .ok .Altgr
  | "shift" => .ok .Shift
  | "any" => .ok .Any
  | "_" => .ok .Omission
  | _ => .error (.panicked "is not a modifier")

/-- The typed children of a key token pair: attribute prefixes
(`Rule::send` for `~`, `Rule::on_release` for `@`), the key text
(`Rule::shorthand_allow` or `Rule::key_base`), and ignored nodes. -/
inductive KeyTokenPart where
  | send
  | onRelease
  | keyText (s : String)
  | other
deriving DecidableEq, Repr

/-- A key token is the list of its children in source order. -/
abbrev KeyToken := List KeyTokenPart

/-- `lib.rs` `parse_key`: fold the children, OR-ing attribute flags and
taking the unescaped, lowercased key text.  The `unescape` assertion
can abort. -/
def parse_key (t : KeyToken) : Except ParseErr KeyRepr := do
  let r ← t.foldlM
    (fun (st : KeyAttribute × String) part =>
      match part with
      | .send => Except.ok (st.1.orSend, st.2)
      | .onRelease => Except.ok (st.1.orOnRelease, st.2)
      | .keyText s => do
        let k ← unescape (lowerStr s)
        Except.ok (st.1, k)
      | .other => Except.ok st) (KeyAttribute.none, "")
  Except.ok ⟨r.2, r.1⟩

/-- `token.rs` `TryFrom<KeyRepr> for Key`: resolve the name through the
evdev table, keep the attribute. -/
def tryIntoKey (r : KeyRepr) : Except ParseErr Key := do
  let code ← convert r.key
  Except.ok ⟨code, r.attr⟩

/-- `str::parse::<char>`: succeeds exactly on one-character strings;
the call sites wrap failure in `expect`, i.e. a process abort. -/
def parseChar (s : String) (msg : String) : Except ParseErr Char :=
  match s.toList with
  | [c] => .ok c
  | _ => .error (.panicked msg)

/-- `range.rs` `verify_range_bounds`: ASCII checks and bound ordering,
each failure a spanned grammar error. -/
def verifyRangeBounds (lo hi : Char) (span : String) : Except ParseErr Unit :=
  if lo.toNat > 127 then
    .error (.grammar ("shorthand lower bound `" ++ String.singleton lo ++
      "` is not an ASCII character") span)
  else if hi.toNat > 127 then
    .error (.grammar ("shorthand upper bound `" ++ String.singleton hi ++
      "` is not an ASCII character") span)
  else if hi < lo then
    .error (.grammar ("shorthand lower bound `" ++ String.singleton lo ++
      "` is greater than upper bound `" ++ String.singleton hi ++ "`") span)
  else
    .ok ()

/-- `range.rs` `Bounds::expand_keys`: parse both bound tokens as keys,
require equal timing attributes, convert to characters, verify. -/
def expandKeys (lower upper : KeyToken) (span : String) :
    Except ParseErr (Char × Char) := do
  let lo ← parse_key lower
  let hi ← parse_key upper
  if lo.attr ≠ hi.attr then
    .error (.grammar "range bounds must have the same timing attributes" span)
  else do
    let lc ← parseChar lo.key "failed to parse lower bound as a character"
    let uc ← parseChar hi.key "failed to parse upper bound as a character"
    verifyRangeBounds lc uc span
    .ok (lc, uc)

/-- `range.rs` `Bounds::expand_commands`: the bounds are taken as raw
text, converted to characters, then verified. -/
def expandCommands (lower upper : String) (span : String) :
    Except ParseErr (Char × Char) := do
  let lc ← parseChar lower "failed to parse lower bound as a character"
  let uc ← parseChar upper "failed to parse upper bound as a character"
  verifyRangeBounds lc uc span
  .ok (lc, uc)

/-- The inclusive character range `lo..=hi` (bounds are ASCII-checked
before this is evaluated, so scalar-value gaps do not arise). -/
def charRange (lo hi : Char) : List Char :=
  (List.range (hi.toNat + 1 - lo.toNat)).map (fun i => Char.ofNat (lo.toNat + i))

/-- Children of a key-side `Rule::shorthand` pair. -/
inductive ShorthandComponent where
  | keyInShorthand (k : KeyToken)
  | keyRange (lower upper : KeyToken) (span : String)
  | other
deriving DecidableEq, Repr

/-- Pairs handed to `DefinitionUncompiled::ingest`: a single modifier,
a modifier shorthand (`Rule::modifier_shorthand` and
`Rule::modifier_omit_shorthand` receive identical treatment), a key
shorthand, a plain key, or an ignored node. -/
inductive IngestComponent where
  | modifier (s : String)
  | modifierShorthand (parts : List String)
  | shorthand (cs : List ShorthandComponent)
  | keyNormal (k : KeyToken)
  | other
deriving DecidableEq, Repr

/-- Children of a `Rule::command_shorthand` pair. -/
inductive CommandShorthandComponent where
  | commandComponent (s : String)
  | range (lower upper : String) (span : String)
  | other
deriving DecidableEq, Repr

/-- Children of a `Rule::command` pair. -/
inductive CommandSub where
  | standalone (s : String)
  | shorthand (cs : List CommandShorthandComponent)
  | doubleAmpersand (s : String)
  | enterMode (modename : String)
  | escapeMode
  | other
deriving DecidableEq, Repr

/-- Children of a `Rule::binding` pair: the command node is treated
specially by `binding_parser`; every other child is fed to `ingest`. -/
inductive BindingComponent where
  | command (subs : List CommandSub)
  | ingest (c : IngestComponent)
deriving DecidableEq, Repr

/-- A binding declaration with the span of the whole declaration
(`pair.as_span()`), kept as the source text it covers. -/
structure BindingDecl where
  components : List BindingComponent
  span : String
deriving DecidableEq, Repr

/-- Children of a `Rule::mode` pair. -/
inductive ModeComponent where
  | modename (s : String)
  | binding (b : BindingDecl)
  | unbind (cs : List IngestComponent)
  | oneoff
  | swallow
  | other
deriving DecidableEq, Repr

/-- A top-level declaration inside a file (`Rule::binding`,
`Rule::unbind`, `Rule::mode`, `Rule::import`).  An import declaration
carries its `Rule::import_file` children, already extracted exactly as
`import_parser` does. -/
inductive Decl where
  | binding (b : BindingDecl)
  | unbind (cs : List IngestComponent)
  | mode (cs : List ModeComponent)
  | imp (files : List String)
deriving DecidableEq, Repr

/-- `lib.rs` `DefinitionUncompiled`: accumulated modifier groups and
key alternatives. -/
structure DefinitionUncompiled where
  modifiers : List (List Modifier)
  keys : List Key
deriving DecidableEq, Repr

/-- `DefinitionUncompiled::default()`. -/
def DefinitionUncompiled.default : DefinitionUncompiled := ⟨[], []⟩

/-- `DefinitionUncompiled::ingest`: dispatch one component. -/
def ingest (st : DefinitionUncompiled) (c : IngestComponent) :
    Except ParseErr DefinitionUncompiled :=
  match c with
  | .modifier s => do
    let m ← modifierOfRepr (lowerStr s)
    .ok { st with modifiers := st.modifiers ++ [[m]] }
  | .modifierShorthand parts => do
    let ms ← parts.mapM modifierOfRepr
    .ok { st with modifiers := st.modifiers ++ [ms] }
  | .shorthand cs =>
    cs.foldlM
      (fun (st : DefinitionUncompiled) sc =>
        match sc with
        | .keyInShorthand k => do
          let r ← parse_key k
          let key ← tryIntoKey r
          Except.ok { st with keys := st.keys ++ [key] }
        | .keyRange lower upper span => do
          let (lo, hi) ← expandKeys lower upper span
          let keys ← (charRange lo hi).mapM
            (fun ch => tryIntoKey ⟨String.singleton ch, KeyAttribute.none⟩)
          Except.ok { st with keys := st.keys ++ keys }
        | .other => Except.ok st) st
  | .keyNormal k => do
    let r ← parse_key k
    let key ← tryIntoKey r
    .ok { st with keys := st.keys ++ [key] }
  | .other => .ok st

/-- `itertools::multi_cartesian_product`: the product of a nonempty
list of lists (first list varies slowest); the product of zero lists
is empty. -/
def mcpAux {α : Type} : List (List α) → List (List α)
  | [] => [[]]
  | l :: ls => l.flatMap (fun x => (mcpAux ls).map (fun r => x :: r))

/-- `itertools::multi_cartesian_product` on a list of lists. -/
def multiCartesianProduct {α : Type} (ls : List (List α)) : List (List α) :=
  if ls.isEmpty then [] else mcpAux ls

/-- `DefinitionUncompiled::compile`: without modifiers, one definition
per key; otherwise the cartesian product of the modifier alternatives
with the keys, each chosen modifier list collected into a set. -/
def compile (st : DefinitionUncompiled) : List Definition :=
  if st.modifiers.isEmpty then
    st.keys.map (fun key => ⟨[], key⟩)
  else
    (multiCartesianProduct st.modifiers).flatMap
      (fun ms => st.keys.map (fun key => ⟨ModSet.ofList ms, key⟩))

/-- `unbind_parser`: ingest every child, then compile. -/
def unbindParser (cs : List IngestComponent) : Except ParseErr (List Definition) := do
  let st ← cs.foldlM ingest DefinitionUncompiled.default
  .ok (compile st)

/-- `parse_command_shorthand`: collect literal command components and
expanded command-side ranges. -/
def parseCommandShorthand (cs : List CommandShorthandComponent) :
    Except ParseErr (List String) :=
  cs.foldlM
    (fun (acc : List String) c =>
      match c with
      | .commandComponent s => Except.ok (acc ++ [s])
      | .range lower upper span => do
        let (lo, hi) ← expandCommands lower upper span
        Except.ok (acc ++ (charRange lo hi).map String.singleton)
      | .other => Except.ok acc) []

/-- The mutable state of `binding_parser` while it walks the children
of a binding declaration: the command segments `comm`, the pending
mode-enter stack, the recorded stray escapes, and the uncompiled
definition. -/
structure BState where
  comm : List (List String)
  enters : List ModeInstruction
  escapes : List ModeInstruction
  uncompiled : DefinitionUncompiled
deriving DecidableEq, Repr

/-- The initial `binding_parser` state. -/
def BState.init : BState := ⟨[], [], [], DefinitionUncompiled.default⟩

/-- One step of the `Rule::command` sub-loop of `binding_parser`. -/
def processCommandSub (st : BState) (sub : CommandSub) : Except ParseErr BState :=
  match sub with
  | .standalone s => .ok { st with comm := st.comm ++ [[s]] }
  | .shorthand cs => do
    let v ← parseCommandShorthand cs
    .ok { st with comm := st.comm ++ [v] }
  | .doubleAmpersand s =>
    if st.comm.getLast? = some ["&&"] then .ok st
    else .ok { st with comm := st.comm ++ [[s]] }
  | .enterMode name => .ok { st with enters := st.enters ++ [.enter name] }
  | .escapeMode =>
    if st.enters.isEmpty then .ok { st with escapes := st.escapes ++ [.escape] }
    else .ok { st with enters := st.enters.dropLast }
  | .other => .ok st

/-- One step of the outer component loop of `binding_parser`: command
nodes run the sub-loop, every other node is ingested. -/
def processComponent (st : BState) (c : BindingComponent) : Except ParseErr BState :=
  match c with
  | .command subs => subs.foldlM processCommandSub st
  | .ingest ic => do
    let u ← ingest st.uncompiled ic
    .ok { st with uncompiled := u }

/-- The component loop of `binding_parser` over all children. -/
def processComponents (cs : List BindingComponent) : Except ParseErr BState :=
  cs.foldlM processComponent BState.init

/-- The parity-failure message of `binding_parser`, verbatim. -/
def parityMsg (n m : Nat) : String :=
  "the number of possible binding variants " ++ toString n ++
    " does not equal the number of possible command variants " ++ toString m ++ "."

/-- Remove the `Omission` sentinel from a binding's modifier set. -/
def stripOmission (b : Binding) : Binding :=
  { b with definition :=
      { b.definition with modifiers := ModSet.erase .Omission b.definition.modifiers } }

/-- `binding_parser`: walk the children, build the key-side and
command-side cross products, enforce parity, zip by index, attach the
mode instructions, and strip `Omission` from every produced binding. -/
def bindingParser (b : BindingDecl) : Except ParseErr (List Binding) := do
  let st ← processComponents b.components
  let bindCartesianProduct := compile st.uncompiled
  let commandCartesianProduct := (multiCartesianProduct st.comm).map String.join
  let bindLen := bindCartesianProduct.length
  let commandLen := commandCartesianProduct.length
  if bindLen ≠ commandLen then
    .error (.grammar (parityMsg bindLen commandLen) b.span)
  else
    let bindings := List.zipWith
      (fun definition command =>
        Binding.mk definition command (st.enters ++ st.escapes))
      bindCartesianProduct commandCartesianProduct
    .ok (bindings.map stripOmission)

/-- `Mode::default()`. -/
def Mode.default : Mode := ⟨"", false, false, [], []⟩

/-- One step of the `mode_parser` loop. -/
def modeStep (m : Mode) (c : ModeComponent) : Except ParseErr Mode :=
  match c with
  | .modename s => .ok { m with name := s }
  | .binding b => do
    let bs ← bindingParser b
    .ok { m with bindings := m.bindings ++ bs }
  | .unbind u => do
    let ds ← unbindParser u
    .ok { m with unbinds := m.unbinds ++ ds }
  | .oneoff => .ok { m with oneoff := true }
  | .swallow => .ok { m with swallow := true }
  | .other => .ok m

/-- `mode_parser`: fold the mode block's children over the default
mode.  Bindings and unbinds are appended; no merging and no unbind
filtering happens inside a mode. -/
def modeParser (cs : List ModeComponent) : Except ParseErr Mode :=
  cs.foldlM modeStep Mode.default

/-- The last-write-wins merge step of `as_import`: if a binding with
the same definition exists, overwrite its command and mode
instructions in place; otherwise append. -/
def mergeBinding : List Binding → Binding → List Binding
  | [], b => [b]
  | x :: xs, b =>
    if x.definition = b.definition then
      { x with command := b.command, mode_instructions := b.mode_instructions } :: xs
    else
      x :: mergeBinding xs b

/-- Sorted-set insertion on path strings (`BTreeSet<String>`). -/
def qInsert (p : String) : List String → List String
  | [] => [p]
  | x :: xs =>
    if p = x then x :: xs
    else if p < x then p :: x :: xs
    else x :: qInsert p xs

/-- The accumulators built by the declaration loop of `as_import`. -/
structure PState where
  bindings : List Binding
  unbinds : List Definition
  queue : List String
  modes : List Mode
deriving DecidableEq, Repr

/-- One step of the declaration loop of `as_import`. -/
def processDecl (st : PState) (d : Decl) : Except ParseErr PState :=
  match d with
  | .binding b => do
    let bs ← bindingParser b
    .ok { st with bindings := bs.foldl mergeBinding st.bindings }
  | .unbind u => do
    let ds ← unbindParser u
    .ok { st with unbinds := st.unbinds ++ ds }
  | .mode m => do
    let md ← modeParser m
    .ok { st with modes := st.modes ++ [md] }
  | .imp files =>
    .ok { st with queue := files.foldl (fun q f => qInsert f q) st.queue }

/-- The declaration loop of `as_import` over a whole file. -/
def processDecls (ds : List Decl) : Except ParseErr PState :=
  ds.foldlM processDecl ⟨[], [], [], []⟩

/-- `ParserInput`: a raw (already parse-tree-shaped) source or a path. -/
inductive ParserInput where
  | raw (decls : List Decl)
  | path (p : String)
deriving DecidableEq, Repr

/-- The file system: an association list from path strings to file
contents.  `read_config` failures (missing file, not regular, too
large) are collapsed into `ParseErr.readError`. -/
abbrev Fs := List (String × List Decl)

/-- `read_config` followed by the grammar parse: look the path up. -/
def readInput (fs : Fs) : ParserInput → Except ParseErr (List Decl)
  | .raw decls => .ok decls
  | .path p =>
    match fs.find? (fun kv => kv.1 = p) with
    | some kv => .ok kv.2
    | none => .error (.readError p)

/-- The result of one `as_import` call, instrumented with the global
`seen` set threading, the document-order trace of all declarations
processed, and the trace of paths read. -/
structure RunOut where
  cfg : Config
  seen : List String
  decls : List Decl
  reads : List String
deriving DecidableEq, Repr

/-- The two recursion sites of `as_import`: a whole call, or the
queue loop of imports with its accumulators. -/
inductive Job where
  | imp (input : ParserInput) (seen : List String)
  | loop (queue seen : List String) (bs : List Binding) (us : List Definition)
      (ms : List Mode) (ds : List Decl) (rs : List String)

/-- The paths read on entry of `as_import` for the given input. -/
def entryReads (input : ParserInput) : List String :=
  match input with
  | .raw _ => []
  | .path p => [p]

/-- `SwhkdParser::as_import` with explicit fuel: `Job.imp` reads and
parses one input and runs the declaration loop; `Job.loop` is the
`while let Some(import) = imports.pop_first()` loop, popping the
minimum of the queue, skipping seen paths, recursing into new ones and
merging their results. -/
def run (fs : Fs) : Nat → Job → Option (Except ParseErr RunOut)
  | 0, _ => none
  | fuel + 1, .imp input seen =>
    match readInput fs input with
    | .error e => some (.error e)
    | .ok decls =>
      match processDecls decls with
      | .error e => some (.error e)
      | .ok st =>
        run fs fuel (.loop st.queue seen st.bindings st.unbinds st.modes
          decls (entryReads input))
  | _ + 1, .loop [] seen bs us ms ds rs =>
    some (.ok ⟨⟨bs, us, [], ms⟩, seen, ds, rs⟩)
  | fuel + 1, .loop (p :: rest) seen bs us ms ds rs =>
    if p ∈ seen then
      run fs fuel (.loop rest seen bs us ms ds rs)
    else
      match run fs fuel (.imp (.path p) (qInsert p seen)) with
      | none => none
      | some (.error e) => some (.error e)
      | some (.ok child) =>
        run fs fuel (.loop
          (child.cfg.imports.foldl (fun q f => qInsert f q) rest)
          child.seen
          (child.cfg.bindings.foldl mergeBinding bs)
          (us ++ child.cfg.unbinds)
          (ms ++ child.cfg.modes)
          (ds ++ child.decls)
          (rs ++ child.reads))

/-- `as_import` proper. -/
def asImport (fs : Fs) (fuel : Nat) (input : ParserInput) (seen : List String) :
    Option (Except ParseErr RunOut) :=
  run fs fuel (.imp input seen)

/-- Remove the first binding whose definition equals `d`
(`position` + `remove` in `SwhkdParser::from`). -/
def removeFirstDef : List Binding → Definition → List Binding
  | [], _ => []
  | b :: t, d => if b.definition = d then t else b :: removeFirstDef t d

/-- The final result of `SwhkdParser::from`, with traces. -/
structure ParseOut where
  cfg : Config
  decls : List Decl
  reads : List String
deriving DecidableEq, Repr

/-- `SwhkdParser::from`: run `as_import` with an empty `seen` set,
record the seen set as the import set, then drop, for each root-level
unbind definition, the first binding carrying it. -/
def parserFrom (fs : Fs) (fuel : Nat) (input : ParserInput) :
    Option (Except ParseErr ParseOut) :=
  match asImport fs fuel input [] with
  | none => none
  | some (.error e) => some (.error e)
  | some (.ok out) =>
    let bindings := out.cfg.unbinds.foldl removeFirstDef out.cfg.bindings
    some (.ok ⟨⟨bindings, out.cfg.unbinds, out.seen, out.cfg.modes⟩,
      out.decls, out.reads⟩)

instance {ε α : Type} [DecidableEq ε] [DecidableEq α] : DecidableEq (Except ε α) :=
  fun a b =>
    match a, b with
    | .error e, .error f =>
      if h : e = f then .isTrue (by rw [h]) else .isFalse (fun c => h (by injection c))
    | .error _, .ok _ => .isFalse (fun c => Except.noConfusion c)
    | .ok _, .error _ => .isFalse (fun c => Except.noConfusion c)
    | .ok x, .ok y =>
      if h : x = y then .isTrue (by rw [h]) else .isFalse (fun c => h (by injection c))

/-! ### Specification-side helpers

These definitions give names to the notions the specification speaks
about: document-order binding/unbind/mode lists of a declaration
stream, definition fingerprints, first-occurrence deduplication and
last-occurrence contents. -/

/-- The definitions (override fingerprints) of a binding list. -/
def defsOf (l : List Binding) : List Definition := l.map (fun b => b.definition)

/-- No two bindings share a definition. -/
def NodupDefs (l : List Binding) : Prop := (defsOf l).Nodup

/-- Deduplication keeping the first occurrence of each element. -/
def dkf {α : Type} [DecidableEq α] (l : List α) : List α :=
  l.foldl (fun acc x => if x ∈ acc then acc else acc ++ [x]) []

/-- The last binding in `l` whose definition is `d`. -/
def lastOcc (l : List Binding) (d : Definition) : Option Binding :=
  (l.filter (fun b => b.definition = d)).getLast?

/-- All bindings produced, in document order, by the binding
declarations of a declaration stream. -/
def declBindings : List Decl → Except ParseErr (List Binding)
  | [] => .ok []
  | .binding b :: t => do
    let x ← bindingParser b
    let r ← declBindings t
    .ok (x ++ r)
  | _ :: t => declBindings t

/-- All root-level unbind definitions, in document order. -/
def declUnbinds : List Decl → Except ParseErr (List Definition)
  | [] => .ok []
  | .unbind u :: t => do
    let x ← unbindParser u
    let r ← declUnbinds t
    .ok (x ++ r)
  | _ :: t => declUnbinds t

/-- All modes, in document order. -/
def declModes : List Decl → Except ParseErr (List Mode)
  | [] => .ok []
  | .mode m :: t => do
    let x ← modeParser m
    let r ← declModes t
    .ok (x :: r)
  | _ :: t => declModes t

/-- All imported path strings, in document order. -/
def declImports : List Decl → List String
  | [] => []
  | .imp fl :: t => fl ++ declImports t
  | _ :: t => declImports t

/-! ### The override merge, characterized -/

/-- Overwrite the command and mode instructions of the first binding
whose definition is `d`; no effect when none matches. -/
def updFirst (acc : List Binding) (d : Definition) (cmd : String)
    (ins : List ModeInstruction) : List Binding :=
  match acc with
  | [] => []
  | x :: xs =>
    if x.definition = d then
      { x with command := cmd, mode_instructions := ins } :: xs
    else
      x :: updFirst xs d cmd ins

theorem mergeBinding_eq (acc : List Binding) (b : Binding) :
    mergeBinding acc b =
      if b.definition ∈ defsOf acc then
        updFirst acc b.definition b.command b.mode_instructions
      else acc ++ [b] := by
  induction acc with
  | nil => simp [mergeBinding, defsOf, updFirst]
  | cons x xs ih =>
    simp only [mergeBinding, updFirst, defsOf, List.map_cons, List.mem_cons]
    by_cases hx : x.definition = b.definition
    · simp [hx]
    · have hx' : ¬ b.definition = x.definition := fun h => hx h.symm
      simp only [if_neg hx, ih, defsOf]
      by_cases hmem : b.definition ∈ xs.map (fun b => b.definition)
      · simp [hmem, hx', hx]
      · simp [hmem, hx', hx]

theorem defsOf_updFirst (acc : List Binding) (d : Definition) (cmd : String)
    (ins : List ModeInstruction) : defsOf (updFirst acc d cmd ins) = defsOf acc := by
  induction acc with
  | nil => rfl
  | cons x xs ih =>
    simp only [updFirst]
    by_cases hx : x.definition = d
    · simp [defsOf, hx]
    · simp [defsOf, hx]
      simpa [defsOf] using ih

theorem defsOf_mergeBinding (acc : List Binding) (b : Binding) :
    defsOf (mergeBinding acc b) =
      if b.definition ∈ defsOf acc then defsOf acc
      else defsOf acc ++ [b.definition] := by
  rw [mergeBinding_eq]
  by_cases h : b.definition ∈ defsOf acc
  · rw [if_pos h, if_pos h, defsOf_updFirst]
  · rw [if_neg h, if_neg h]
    simp [defsOf]

theorem nodupDefs_mergeBinding {acc : List Binding} (h : NodupDefs acc)
    (b : Binding) : NodupDefs (mergeBinding acc b) := by
  unfold NodupDefs at *
  rw [defsOf_mergeBinding]
  by_cases hm : b.definition ∈ defsOf acc
  · simpa [hm]
  · simp only [hm, if_false]
    simpa [List.nodup_append] using ⟨h, hm⟩

theorem nodupDefs_mergeFold {acc : List Binding} (h : NodupDefs acc)
    (l : List Binding) : NodupDefs (l.foldl mergeBinding acc) := by
  induction l generalizing acc with
  | nil => simpa
  | cons b t ih => exact ih (nodupDefs_mergeBinding h b)

theorem mem_defsOf_mergeBinding_left {acc : List Binding} {d : Definition}
    (h : d ∈ defsOf acc) (b : Binding) : d ∈ defsOf (mergeBinding acc b) := by
  rw [defsOf_mergeBinding]
  by_cases hm : b.definition ∈ defsOf acc <;> simp [hm, h]

theorem mem_defsOf_mergeFold_left {acc : List Binding} {d : Definition}
    (h : d ∈ defsOf acc) (l : List Binding) :
    d ∈ defsOf (l.foldl mergeBinding acc) := by
  induction l generalizing acc with
  | nil => simpa
  | cons b t ih => exact ih (mem_defsOf_mergeBinding_left h b)

theorem mem_defsOf_mergeFold_right {l : List Binding} {d : Definition}
    (h : d ∈ defsOf l) (acc : List Binding) :
    d ∈ defsOf (l.foldl mergeBinding acc) := by
  induction l generalizing acc with
  | nil => cases h
  | cons b t ih =>
    simp only [List.foldl_cons]
    rcases List.mem_cons.mp h with h | h
    · refine mem_defsOf_mergeFold_left ?_ t
      rw [defsOf_mergeBinding]
      subst h
      by_cases hm : b.definition ∈ defsOf acc <;> simp [hm]
    · exact ih h _

theorem updFirst_not_mem {acc : List Binding} {d : Definition}
    (h : d ∉ defsOf acc) (c : String) (i : List ModeInstruction) :
    updFirst acc d c i = acc := by
  induction acc with
  | nil => rfl
  | cons x xs ih =>
    have hx : ¬ x.definition = d := by
      intro hx
      exact h (by simp [defsOf, hx])
    have hxs : d ∉ defsOf xs := fun hm => h (by simp [defsOf] at hm ⊢; right; exact hm)
    simp [updFirst, hx, ih hxs]

theorem updFirst_append (acc l : List Binding) (d : Definition) (c : String)
    (i : List ModeInstruction) :
    updFirst (acc ++ l) d c i =
      if d ∈ defsOf acc then updFirst acc d c i ++ l
      else acc ++ updFirst l d c i := by
  induction acc with
  | nil => simp [defsOf, updFirst]
  | cons x xs ih =>
    by_cases hx : x.definition = d
    · simp [updFirst, hx, defsOf]
    · have hx' : ¬ d = x.definition := fun h => hx h.symm
      simp only [List.cons_append, updFirst, if_neg hx, List.append_eq, ih]
      by_cases hmem : d ∈ defsOf xs
      · rw [if_pos hmem, if_pos (show d ∈ defsOf (x :: xs) by
          simpa [defsOf] using Or.inr (by simpa [defsOf] using hmem))]
      · rw [if_neg hmem, if_neg (show d ∉ defsOf (x :: xs) by
          simp only [defsOf, List.map_cons, List.mem_cons]
          push_neg
          exact ⟨hx', by simpa [defsOf] using hmem⟩)]

theorem updFirst_updFirst_same (acc : List Binding) (d : Definition)
    (c c' : String) (i i' : List ModeInstruction) :
    updFirst (updFirst acc d c i) d c' i' = updFirst acc d c' i' := by
  induction acc with
  | nil => rfl
  | cons x xs ih =>
    by_cases hx : x.definition = d
    · simp [updFirst, hx]
    · simp [updFirst, hx, ih]

theorem updFirst_comm {d e : Definition} (hne : d ≠ e) (acc : List Binding)
    (c c' : String) (i i' : List ModeInstruction) :
    updFirst (updFirst acc d c i) e c' i' = updFirst (updFirst acc e c' i') d c i := by
  have hne' : ¬ d = e := hne
  have hen : ¬ e = d := fun h => hne h.symm
  induction acc with
  | nil => rfl
  | cons x xs ih =>
    by_cases hx : x.definition = d
    · have hxe : ¬ x.definition = e := fun h => hne (hx.symm.trans h)
      simp [updFirst, hx, hxe, hne', hen]
    · by_cases hxe : x.definition = e
      · simp [updFirst, hx, hxe, hne', hen]
      · simp [updFirst, hx, hxe, ih]

theorem mergeBinding_updFirst_ne {x : Binding} {d : Definition}
    (hne : x.definition ≠ d) (acc : List Binding) (c : String)
    (i : List ModeInstruction) :
    mergeBinding (updFirst acc d c i) x = updFirst (mergeBinding acc x) d c i := by
  rw [mergeBinding_eq, mergeBinding_eq, defsOf_updFirst]
  by_cases hmem : x.definition ∈ defsOf acc
  · rw [if_pos hmem, if_pos hmem, updFirst_comm (fun h => hne h)]
  · rw [if_neg hmem, if_neg hmem, updFirst_append]
    by_cases hd : d ∈ defsOf acc
    · rw [if_pos hd]
    · rw [if_neg hd, updFirst_not_mem hd]
      have : d ∉ defsOf [x] := by simp [defsOf]; exact fun h => hne h.symm
      rw [updFirst_not_mem this]

theorem mergeFold_updFirst_comm {d : Definition} {t : List Binding}
    (ht : ∀ x ∈ t, x.definition ≠ d) (acc : List Binding) (c : String)
    (i : List ModeInstruction) :
    t.foldl mergeBinding (updFirst acc d c i) = updFirst (t.foldl mergeBinding acc) d c i := by
  induction t generalizing acc with
  | nil => rfl
  | cons x t' ih =>
    simp only [List.foldl_cons]
    rw [mergeBinding_updFirst_ne (ht x (by simp))]
    exact ih (fun y hy => ht y (by simp [hy])) _

theorem mergeBinding_same_def {b c : Binding} (h : c.definition = b.definition)
    (acc : List Binding) :
    mergeBinding acc c =
      updFirst (mergeBinding acc b) c.definition c.command c.mode_instructions := by
  rw [mergeBinding_eq, mergeBinding_eq]
  by_cases hmem : b.definition ∈ defsOf acc
  · rw [if_pos hmem, if_pos (h ▸ hmem), h, updFirst_updFirst_same]
  · rw [if_neg hmem, if_neg (h ▸ hmem), updFirst_append, if_neg (h ▸ hmem)]
    have hument : updFirst [b] c.definition c.command c.mode_instructions =
        [{ b with command := c.command, mode_instructions := c.mode_instructions }] := by
      simp [updFirst, h]
    rw [hument]
    have : ({ b with command := c.command, mode_instructions := c.mode_instructions } :
        Binding) = c := by
      cases c
      cases b
      simp_all
    rw [this]

theorem mergeFold_updFirst {d : Definition} {c : String} {i : List ModeInstruction}
    {M : List Binding} (hM : NodupDefs M) (hd : d ∈ defsOf M) (a : List Binding) :
    (updFirst M d c i).foldl mergeBinding a =
      updFirst (M.foldl mergeBinding a) d c i := by
  induction M generalizing a with
  | nil => cases hd
  | cons m M' ih =>
    by_cases hm : m.definition = d
    · have hM' : ∀ x ∈ M', x.definition ≠ d := by
        intro x hx he
        have : m.definition ∈ defsOf M' := by
          rw [hm, ← he]
          exact List.mem_map_of_mem _ hx
        exact (List.nodup_cons.mp hM).1 this
      simp only [updFirst, if_pos hm, List.foldl_cons]
      have step : mergeBinding a { m with command := c, mode_instructions := i } =
          updFirst (mergeBinding a m) d c i := by
        have := mergeBinding_same_def (b := m)
          (c := { m with command := c, mode_instructions := i }) (by simp) a
        simpa [hm] using this
      rw [step]
      exact mergeFold_updFirst_comm hM' _ _ _
    · have hd' : d ∈ defsOf M' := by
        rcases List.mem_cons.mp hd with h | h
        · exact absurd h.symm hm
        · exact h
      simp only [updFirst, if_neg hm, List.foldl_cons]
      exact ih (List.nodup_cons.mp hM).2 hd' _

theorem mergeFold_step {M : List Binding} (hM : NodupDefs M) (b : Binding)
    (a : List Binding) :
    (mergeBinding M b).foldl mergeBinding a = mergeBinding (M.foldl mergeBinding a) b := by
  rw [mergeBinding_eq M b]
  by_cases hmem : b.definition ∈ defsOf M
  · rw [if_pos hmem, mergeFold_updFirst hM hmem,
      mergeBinding_eq (M.foldl mergeBinding a),
      if_pos (mem_defsOf_mergeFold_right hmem a)]
  · rw [if_neg hmem, List.foldl_append]
    rfl

theorem mergeFold_mergeFold (l a : List Binding) :
    (l.foldl mergeBinding []).foldl mergeBinding a = l.foldl mergeBinding a := by
  induction l using List.reverseRecOn with
  | nil => rfl
  | append_singleton l b ih =>
    rw [List.foldl_append, List.foldl_append, List.foldl_cons, List.foldl_nil,
      List.foldl_cons, List.foldl_nil,
      mergeFold_step (nodupDefs_mergeFold (by simp [NodupDefs, defsOf]) l) b a, ih]

theorem mem_updFirst {x : Binding} {acc : List Binding} {d : Definition}
    {c : String} {i : List ModeInstruction} (h : x ∈ updFirst acc d c i) :
    x ∈ acc ∨ (x.definition = d ∧ x.command = c ∧ x.mode_instructions = i) := by
  induction acc with
  | nil => cases h
  | cons y ys ih =>
    by_cases hy : y.definition = d
    · rw [updFirst, if_pos hy] at h
      rcases List.mem_cons.mp h with h | h
      · exact Or.inr (by simp [h, hy])
      · exact Or.inl (List.mem_cons.mpr (Or.inr h))
    · rw [updFirst, if_neg hy] at h
      rcases List.mem_cons.mp h with h | h
      · exact Or.inl (by simp [h])
      · rcases ih h with h | h
        · exact Or.inl (List.mem_cons.mpr (Or.inr h))
        · exact Or.inr h

theorem mem_updFirst_of_ne {x : Binding} {acc : List Binding} {d : Definition}
    {c : String} {i : List ModeInstruction} (h : x ∈ updFirst acc d c i)
    (hne : x.definition ≠ d) : x ∈ acc := by
  rcases mem_updFirst h with h | h
  · exact h
  · exact absurd h.1 hne

theorem mem_updFirst_of_eq {x : Binding} {acc : List Binding} {d : Definition}
    {c : String} {i : List ModeInstruction} (hacc : NodupDefs acc)
    (h : x ∈ updFirst acc d c i) (heq : x.definition = d) :
    x.command = c ∧ x.mode_instructions = i := by
  induction acc with
  | nil => cases h
  | cons y ys ih =>
    have hys : NodupDefs ys := (List.nodup_cons.mp hacc).2
    by_cases hy : y.definition = d
    · rw [updFirst, if_pos hy] at h
      rcases List.mem_cons.mp h with h | h
      · simp [h]
      · exfalso
        have : y.definition ∈ defsOf ys := by
          rw [hy, ← heq]
          exact List.mem_map_of_mem _ h
        exact (List.nodup_cons.mp hacc).1 this
    · rw [updFirst, if_neg hy] at h
      rcases List.mem_cons.mp h with h | h
      · exact absurd (h ▸ heq) hy
      · exact ih hys h

theorem lastOcc_append_ne {l : List Binding} {b : Binding} {d : Definition}
    (h : d ≠ b.definition) : lastOcc (l ++ [b]) d = lastOcc l d := by
  unfold lastOcc
  have hbd : ¬ (b.definition = d) := fun hc => h hc.symm
  have hf : List.filter (fun x => x.definition = d) [b] = [] := by simp [hbd]
  rw [List.filter_append, hf, List.append_nil]

theorem lastOcc_append_self (l : List Binding) (b : Binding) :
    lastOcc (l ++ [b]) b.definition = some b := by
  unfold lastOcc
  rw [List.filter_append]
  have : List.filter (fun x => x.definition = b.definition) [b] = [b] := by simp
  rw [this, List.getLast?_concat]

theorem mergeFold_content {a : List Binding} (ha : NodupDefs a) (l : List Binding) :
    ∀ x ∈ l.foldl mergeBinding a,
      (x.definition ∈ defsOf l →
        ∃ c, lastOcc l x.definition = some c ∧ x.command = c.command ∧
          x.mode_instructions = c.mode_instructions) ∧
      (x.definition ∉ defsOf l → x ∈ a) := by
  induction l using List.reverseRecOn with
  | nil =>
    intro x hx
    exact ⟨fun h => absurd h (by simp [defsOf]), fun _ => hx⟩
  | append_singleton l b ih =>
    intro x hx
    rw [List.foldl_append, List.foldl_cons, List.foldl_nil] at hx
    have hF : NodupDefs (l.foldl mergeBinding a) := nodupDefs_mergeFold ha l
    rw [mergeBinding_eq] at hx
    have keyfact : x.definition = b.definition →
        x.command = b.command ∧ x.mode_instructions = b.mode_instructions := by
      intro hxd
      by_cases hb : b.definition ∈ defsOf (l.foldl mergeBinding a)
      · rw [if_pos hb] at hx
        exact mem_updFirst_of_eq hF hx hxd
      · rw [if_neg hb] at hx
        rcases List.mem_append.mp hx with h | h
        · exact absurd (hxd ▸ List.mem_map_of_mem _ h) hb
        · rcases List.mem_singleton.mp h with rfl
          exact ⟨rfl, rfl⟩
    have memF : x.definition ≠ b.definition → x ∈ l.foldl mergeBinding a := by
      intro hxd
      by_cases hb : b.definition ∈ defsOf (l.foldl mergeBinding a)
      · rw [if_pos hb] at hx
        exact mem_updFirst_of_ne hx hxd
      · rw [if_neg hb] at hx
        rcases List.mem_append.mp hx with h | h
        · exact h
        · rcases List.mem_singleton.mp h with rfl
          exact absurd rfl hxd
    constructor
    · intro hmem
      by_cases hxd : x.definition = b.definition
      · exact ⟨b, by rw [hxd]; exact lastOcc_append_self l b,
          (keyfact hxd).1, (keyfact hxd).2⟩
      · have hxl : x.definition ∈ defsOf l := by
          rcases (by simpa [defsOf] using hmem : x.definition ∈ defsOf l ∨
            x.definition = b.definition) with h' | h'
          · exact h'
          · exact absurd h' hxd
        rcases (ih x (memF hxd)).1 hxl with ⟨c, hc, hcc, hci⟩
        exact ⟨c, by rw [lastOcc_append_ne hxd]; exact hc, hcc, hci⟩
    · intro hmem
      have hxd : x.definition ≠ b.definition := fun hc =>
        hmem (by simp [defsOf, hc])
      exact (ih x (memF hxd)).2
        (fun hc => hmem (by simp [defsOf] at hc ⊢; exact Or.inl hc))

theorem dkf_append {α : Type} [DecidableEq α] (l : List α) (x : α) :
    dkf (l ++ [x]) = if x ∈ dkf l then dkf l else dkf l ++ [x] := by
  simp [dkf, List.foldl_append]

theorem mem_dkf {α : Type} [DecidableEq α] {l : List α} {x : α} :
    x ∈ dkf l ↔ x ∈ l := by
  induction l using List.reverseRecOn with
  | nil => simp [dkf]
  | append_singleton l b ih =>
    rw [dkf_append]
    by_cases hb : b ∈ dkf l
    · rw [if_pos hb]
      simp only [List.mem_append, List.mem_singleton]
      constructor
      · intro h; exact Or.inl (ih.mp h)
      · rintro (h | rfl)
        · exact ih.mpr h
        · exact hb
    · rw [if_neg hb]
      simp [ih]

theorem nodup_dkf {α : Type} [DecidableEq α] (l : List α) : (dkf l).Nodup := by
  induction l using List.reverseRecOn with
  | nil => simp [dkf]
  | append_singleton l b ih =>
    rw [dkf_append]
    by_cases hb : b ∈ dkf l
    · rwa [if_pos hb]
    · rw [if_neg hb]
      simpa [List.nodup_append] using ⟨ih, hb⟩

theorem mergeFold_defs_dkf (l : List Binding) :
    defsOf (l.foldl mergeBinding []) = dkf (defsOf l) := by
  induction l using List.reverseRecOn with
  | nil => simp [defsOf, dkf]
  | append_singleton l b ih =>
    rw [List.foldl_append, List.foldl_cons, List.foldl_nil, defsOf_mergeBinding, ih]
    have hdefs : defsOf (l ++ [b]) = defsOf l ++ [b.definition] := by
      simp [defsOf]
    rw [hdefs, dkf_append]

theorem filter_length_of_nodupDefs {bs : List Binding} (h : NodupDefs bs)
    (D : Definition) :
    (bs.filter (fun b => b.definition = D)).length = if D ∈ defsOf bs then 1 else 0 := by
  induction bs with
  | nil => simp [defsOf]
  | cons b t ih =>
    have ht : NodupDefs t := (List.nodup_cons.mp h).2
    by_cases hb : b.definition = D
    · have hD : D ∉ defsOf t := by
        rw [← hb]
        exact (List.nodup_cons.mp h).1
      have hfilter : t.filter (fun x => x.definition = D) = [] := by
        rw [List.filter_eq_nil_iff]
        intro x hx hc
        have hxD : x.definition = D := by simpa using hc
        exact hD (hxD ▸ List.mem_map_of_mem _ hx)
      have hmem : D ∈ defsOf (b :: t) := by simp [defsOf, hb]
      rw [List.filter_cons, if_pos (by simp [hb]), hfilter, if_pos hmem]
      rfl
    · have hmem : (D ∈ defsOf (b :: t)) ↔ (D ∈ defsOf t) := by
        simp only [defsOf, List.map_cons, List.mem_cons]
        constructor
        · rintro (h' | h')
          · exact absurd h'.symm hb
          · exact h'
        · exact Or.inr
      rw [List.filter_cons, if_neg (by simp [hb]), ih ht]
      by_cases hD : D ∈ defsOf t
      · rw [if_pos hD, if_pos (hmem.mpr hD)]
      · rw [if_neg hD, if_neg (fun hc => hD (hmem.mp hc))]

theorem nodupDefs_filter {bs : List Binding} (h : NodupDefs bs)
    (p : Binding → Bool) : NodupDefs (bs.filter p) := by
  unfold NodupDefs defsOf at *
  exact (List.Sublist.map _ (List.filter_sublist bs)).nodup h

theorem removeFirstDef_eq_filter {bs : List Binding} (h : NodupDefs bs)
    (d : Definition) :
    removeFirstDef bs d = bs.filter (fun b => b.definition ≠ d) := by
  induction bs with
  | nil => rfl
  | cons b t ih =>
    have ht : NodupDefs t := (List.nodup_cons.mp h).2
    by_cases hb : b.definition = d
    · have hd : d ∉ defsOf t := by
        rw [← hb]
        exact (List.nodup_cons.mp h).1
      rw [removeFirstDef, if_pos hb, List.filter_cons, if_neg (by simp [hb])]
      symm
      rw [List.filter_eq_self]
      intro x hx
      simp only [ne_eq, decide_eq_true_eq]
      intro hc
      exact hd (hc ▸ List.mem_map_of_mem _ hx)
    · rw [removeFirstDef, if_neg hb, List.filter_cons, if_pos (by simp [hb]), ih ht]

theorem removalFold_eq_filter {bs : List Binding} (h : NodupDefs bs)
    (us : List Definition) :
    us.foldl removeFirstDef bs = bs.filter (fun b => b.definition ∉ us) := by
  induction us generalizing bs with
  | nil => simp
  | cons d us' ih =>
    rw [List.foldl_cons, removeFirstDef_eq_filter h d,
      ih (nodupDefs_filter h _), List.filter_filter]
    congr 1
    funext b
    by_cases h1 : b.definition = d <;> by_cases h2 : b.definition ∈ us' <;>
      simp [h1, h2]

theorem mem_qInsert {x p : String} {s : List String} :
    x ∈ qInsert p s ↔ x = p ∨ x ∈ s := by
  induction s with
  | nil => simp [qInsert]
  | cons y ys ih =>
    by_cases hp : p = y
    · subst hp
      rw [qInsert, if_pos rfl]
      simp only [List.mem_cons]
      tauto
    · rw [qInsert, if_neg hp]
      by_cases hlt : p < y
      · rw [if_pos hlt]
        simp only [List.mem_cons]
      · rw [if_neg hlt]
        simp only [List.mem_cons, ih]
        tauto

theorem self_mem_qInsert (p : String) (s : List String) : p ∈ qInsert p s :=
  mem_qInsert.mpr (Or.inl rfl)

theorem mem_qInsert_of_mem {x : String} {s : List String} (h : x ∈ s)
    (p : String) : x ∈ qInsert p s :=
  mem_qInsert.mpr (Or.inr h)

/-- The strictly-sorted invariant of the modelled `BTreeSet<String>`
iteration order. -/
def SortedQ (s : List String) : Prop := List.Pairwise (fun a b => a < b) s

theorem qInsert_sorted {s : List String} (h : SortedQ s) (p : String) :
    SortedQ (qInsert p s) := by
  induction s with
  | nil =>
    simp [qInsert, SortedQ]
  | cons y ys ih =>
    rcases List.pairwise_cons.mp h with ⟨hy, hys⟩
    by_cases hp : p = y
    · subst hp
      rw [qInsert, if_pos rfl]
      exact h
    · rw [qInsert, if_neg hp]
      by_cases hlt : p < y
      · rw [if_pos hlt]
        refine List.pairwise_cons.mpr ⟨?_, h⟩
        intro b hb
        rcases List.mem_cons.mp hb with rfl | hb
        · exact hlt
        · exact lt_trans hlt (hy b hb)
      · rw [if_neg hlt]
        refine List.pairwise_cons.mpr ⟨?_, ih hys⟩
        intro b hb
        rcases mem_qInsert.mp hb with rfl | hb
        · rcases lt_trichotomy y b with h' | h' | h'
          · exact h'
          · exact absurd h'.symm hp
          · exact absurd h' hlt
        · exact hy b hb

theorem SortedQ.nodup {s : List String} (h : SortedQ s) : s.Nodup :=
  h.imp (fun hlt => ne_of_lt hlt)

theorem qInsertFold_sorted {s : List String} (h : SortedQ s) (l : List String) :
    SortedQ (l.foldl (fun q f => qInsert f q) s) := by
  induction l generalizing s with
  | nil => simpa
  | cons x t ih => exact ih (qInsert_sorted h x)

theorem mem_qInsertFold_of_mem {x : String} {s : List String} (h : x ∈ s)
    (l : List String) : x ∈ l.foldl (fun q f => qInsert f q) s := by
  induction l generalizing s with
  | nil => simpa
  | cons y t ih => exact ih (mem_qInsert_of_mem h y)

theorem declBindings_append {xs ys : List Decl} {a b : List Binding}
    (hx : declBindings xs = .ok a) (hy : declBindings ys = .ok b) :
    declBindings (xs ++ ys) = .ok (a ++ b) := by
  induction xs generalizing a with
  | nil =>
    simp only [declBindings] at hx
    cases hx
    simpa using hy
  | cons d t ih =>
    cases d with
    | binding bd =>
      simp only [declBindings] at hx ⊢
      cases hb : bindingParser bd with
      | error e => rw [hb] at hx; simp [Bind.bind, Except.bind] at hx
      | ok bs =>
        rw [hb] at hx
        cases ht : declBindings t with
        | error e => rw [ht] at hx; simp [Bind.bind, Except.bind] at hx
        | ok r =>
          rw [ht] at hx
          simp only [Bind.bind, Except.bind] at hx
          cases hx
          simp only [List.cons_append, declBindings, hb, Bind.bind, Except.bind,
            List.append_eq]
          rw [ih ht]
          simp
    | unbind u =>
      simp only [declBindings] at hx
      rw [List.cons_append]
      simpa only [declBindings] using ih hx
    | mode m =>
      simp only [declBindings] at hx
      rw [List.cons_append]
      simpa only [declBindings] using ih hx
    | imp fl =>
      simp only [declBindings] at hx
      rw [List.cons_append]
      simpa only [declBindings] using ih hx

theorem declUnbinds_append {xs ys : List Decl} {a b : List Definition}
    (hx : declUnbinds xs = .ok a) (hy : declUnbinds ys = .ok b) :
    declUnbinds (xs ++ ys) = .ok (a ++ b) := by
  induction xs generalizing a with
  | nil =>
    simp only [declUnbinds] at hx
    cases hx
    simpa using hy
  | cons d t ih =>
    cases d with
    | unbind u =>
      simp only [declUnbinds] at hx ⊢
      cases hb : unbindParser u with
      | error e => rw [hb] at hx; simp [Bind.bind, Except.bind] at hx
      | ok bs =>
        rw [hb] at hx
        cases ht : declUnbinds t with
        | error e => rw [ht] at hx; simp [Bind.bind, Except.bind] at hx
        | ok r =>
          rw [ht] at hx
          simp only [Bind.bind, Except.bind] at hx
          cases hx
          simp only [List.cons_append, declUnbinds, hb, Bind.bind, Except.bind,
            List.append_eq]
          rw [ih ht]
          simp
    | binding bd =>
      simp only [declUnbinds] at hx
      rw [List.cons_append]
      simpa only [declUnbinds] using ih hx
    | mode m =>
      simp only [declUnbinds] at hx
      rw [List.cons_append]
      simpa only [declUnbinds] using ih hx
    | imp fl =>
      simp only [declUnbinds] at hx
      rw [List.cons_append]
      simpa only [declUnbinds] using ih hx

theorem declModes_append {xs ys : List Decl} {a b : List Mode}
    (hx : declModes xs = .ok a) (hy : declModes ys = .ok b) :
    declModes (xs ++ ys) = .ok (a ++ b) := by
  induction xs generalizing a with
  | nil =>
    simp only [declModes] at hx
    cases hx
    simpa using hy
  | cons d t ih =>
    cases d with
    | mode m =>
      simp only [declModes] at hx ⊢
      cases hb : modeParser m with
      | error e => rw [hb] at hx; simp [Bind.bind, Except.bind] at hx
      | ok bs =>
        rw [hb] at hx
        cases ht : declModes t with
        | error e => rw [ht] at hx; simp [Bind.bind, Except.bind] at hx
        | ok r =>
          rw [ht] at hx
          simp only [Bind.bind, Except.bind] at hx
          cases hx
          simp only [List.cons_append, declModes, hb, Bind.bind, Except.bind,
            List.append_eq]
          rw [ih ht]
    | binding bd =>
      simp only [declModes] at hx
      rw [List.cons_append]
      simpa only [declModes] using ih hx
    | unbind u =>
      simp only [declModes] at hx
      rw [List.cons_append]
      simpa only [declModes] using ih hx
    | imp fl =>
      simp only [declModes] at hx
      rw [List.cons_append]
      simpa only [declModes] using ih hx

theorem processDecls_go {ds : List Decl} : ∀ {st st' : PState},
    List.foldlM processDecl st ds = .ok st' →
    ∃ L U M, declBindings ds = .ok L ∧ declUnbinds ds = .ok U ∧
      declModes ds = .ok M ∧
      st'.bindings = L.foldl mergeBinding st.bindings ∧
      st'.unbinds = st.unbinds ++ U ∧
      st'.modes = st.modes ++ M ∧
      st'.queue = (declImports ds).foldl (fun q f => qInsert f q) st.queue := by
  induction ds with
  | nil =>
    intro st st' h
    simp only [List.foldlM_nil] at h
    cases h
    exact ⟨[], [], [], rfl, rfl, rfl, rfl, by simp, by simp, rfl⟩
  | cons d t ih =>
    intro st st' h
    rw [List.foldlM_cons] at h
    cases hd : processDecl st d with
    | error e => rw [hd] at h; simp [Bind.bind, Except.bind] at h
    | ok st₁ =>
      rw [hd] at h
      simp only [Bind.bind, Except.bind] at h
      rcases ih h with ⟨L, U, M, hL, hU, hM, hbind, hunb, hmode, hqueue⟩
      cases d with
      | binding b =>
        cases hb : bindingParser b with
        | error e => rw [processDecl, hb] at hd; simp [Bind.bind, Except.bind] at hd
        | ok bs =>
          rw [processDecl, hb] at hd
          simp only [Bind.bind, Except.bind] at hd
          cases hd
          refine ⟨bs ++ L, U, M, ?_, ?_, ?_, ?_, ?_, ?_, ?_⟩
          · simp only [declBindings, hb, Bind.bind, Except.bind, hL]
          · simpa only [declUnbinds] using hU
          · simpa only [declModes] using hM
          · rw [hbind]
            simp [List.foldl_append]
          · simpa using hunb
          · simpa using hmode
          · simpa only [declImports] using hqueue
      | unbind u =>
        cases hb : unbindParser u with
        | error e => rw [processDecl, hb] at hd; simp [Bind.bind, Except.bind] at hd
        | ok us =>
          rw [processDecl, hb] at hd
          simp only [Bind.bind, Except.bind] at hd
          cases hd
          refine ⟨L, us ++ U, M, ?_, ?_, ?_, ?_, ?_, ?_, ?_⟩
          · simpa only [declBindings] using hL
          · simp only [declUnbinds, hb, Bind.bind, Except.bind, hU]
          · simpa only [declModes] using hM
          · simpa using hbind
          · rw [hunb]
            simp
          · simpa using hmode
          · simpa only [declImports] using hqueue
      | mode m =>
        cases hb : modeParser m with
        | error e => rw [processDecl, hb] at hd; simp [Bind.bind, Except.bind] at hd
        | ok md =>
          rw [processDecl, hb] at hd
          simp only [Bind.bind, Except.bind] at hd
          cases hd
          refine ⟨L, U, md :: M, ?_, ?_, ?_, ?_, ?_, ?_, ?_⟩
          · simpa only [declBindings] using hL
          · simpa only [declUnbinds] using hU
          · simp only [declModes, hb, Bind.bind, Except.bind, hM]
          · simpa using hbind
          · simpa using hunb
          · rw [hmode]
            simp
          · simpa only [declImports] using hqueue
      | imp fl =>
        rw [processDecl] at hd
        cases hd
        refine ⟨L, U, M, ?_, ?_, ?_, ?_, ?_, ?_, ?_⟩
        · simpa only [declBindings] using hL
        · simpa only [declUnbinds] using hU
        · simpa only [declModes] using hM
        · simpa using hbind
        · simpa using hunb
        · simpa using hmode
        · rw [hqueue]
          simp only [declImports, List.foldl_append]

theorem processDecls_char {ds : List Decl} {st' : PState}
    (h : processDecls ds = .ok st') :
    ∃ L U M, declBindings ds = .ok L ∧ declUnbinds ds = .ok U ∧
      declModes ds = .ok M ∧
      st'.bindings = L.foldl mergeBinding [] ∧
      st'.unbinds = U ∧ st'.modes = M ∧
      st'.queue = (declImports ds).foldl (fun q f => qInsert f q) [] := by
  rcases @processDecls_go _ ⟨[], [], [], []⟩ _ h with
    ⟨L, U, M, hL, hU, hM, hbind, hunb, hmode, hqueue⟩
  exact ⟨L, U, M, hL, hU, hM, hbind, by simpa using hunb, by simpa using hmode, hqueue⟩

/-- The invariant tying a successful `run` to the document-order
declaration trace: bindings are the last-write-wins merge of the
document-order binding list, unbinds and modes are concatenations, the
leftover queue is empty, the seen set grows monotonically and stays
sorted, and the paths read beyond the entry are fresh and recorded in
the seen set. -/
def JobInv : Job → RunOut → Prop
  | .imp input seen, out =>
    SortedQ seen →
    ∃ L U M R,
      declBindings out.decls = .ok L ∧ declUnbinds out.decls = .ok U ∧
      declModes out.decls = .ok M ∧
      out.cfg.bindings = L.foldl mergeBinding [] ∧
      out.cfg.unbinds = U ∧ out.cfg.modes = M ∧ out.cfg.imports = [] ∧
      SortedQ out.seen ∧ (∀ x ∈ seen, x ∈ out.seen) ∧
      out.reads = entryReads input ++ R ∧ R.Nodup ∧
      (∀ p ∈ R, p ∉ seen) ∧ (∀ p ∈ R, p ∈ out.seen)
  | .loop _queue seen bs us ms ds rs, out =>
    SortedQ seen →
    ∃ Δ L U M R,
      out.decls = ds ++ Δ ∧
      declBindings Δ = .ok L ∧ declUnbinds Δ = .ok U ∧ declModes Δ = .ok M ∧
      out.cfg.bindings = L.foldl mergeBinding bs ∧
      out.cfg.unbinds = us ++ U ∧
      out.cfg.modes = ms ++ M ∧
      out.cfg.imports = [] ∧
      SortedQ out.seen ∧ (∀ x ∈ seen, x ∈ out.seen) ∧
      out.reads = rs ++ R ∧ R.Nodup ∧
      (∀ p ∈ R, p ∉ seen) ∧ (∀ p ∈ R, p ∈ out.seen)

theorem run_inv (fs : Fs) : ∀ (fuel : Nat) (job : Job) (out : RunOut),
    run fs fuel job = some (.ok out) → JobInv job out := by
  intro fuel
  induction fuel with
  | zero => intro job out h; cases h
  | succ fuel ih =>
    intro job out h
    match job with
    | .imp input seen =>
      intro hsorted
      simp only [run] at h
      split at h
      · cases h
      · next decls hread =>
        split at h
        · cases h
        · next st hpd =>
          have hloop := ih _ _ h hsorted
          rcases processDecls_char hpd with
            ⟨L₀, U₀, M₀, hL₀, hU₀, hM₀, hbind₀, hunb₀, hmode₀, _⟩
          rcases hloop with
            ⟨Δ, L₁, U₁, M₁, R, hdecls, hL₁, hU₁, hM₁, hbind₁, hunb₁, hmode₁,
              himp, hsort', hseen, hreads, hRnd, hRnew, hRseen⟩
          refine ⟨L₀ ++ L₁, U₀ ++ U₁, M₀ ++ M₁, R, ?_, ?_, ?_, ?_, ?_, ?_, ?_,
            hsort', hseen, hreads, hRnd, hRnew, hRseen⟩
          · rw [hdecls]; exact declBindings_append hL₀ hL₁
          · rw [hdecls]; exact declUnbinds_append hU₀ hU₁
          · rw [hdecls]; exact declModes_append hM₀ hM₁
          · rw [hbind₁, hbind₀, List.foldl_append]
          · rw [hunb₁, hunb₀]
          · rw [hmode₁, hmode₀]
          · exact himp
    | .loop queue seen bs us ms ds rs =>
      match queue with
      | [] =>
        intro hsorted
        simp only [run] at h
        cases h
        exact ⟨[], [], [], [], [], by simp, rfl, rfl, rfl, rfl, by simp,
          by simp, rfl, hsorted, fun x hx => hx, by simp, by simp,
          by simp, by simp⟩
      | p :: rest =>
        intro hsorted
        simp only [run] at h
        by_cases hp : p ∈ seen
        · rw [if_pos hp] at h
          rcases ih _ _ h hsorted with
            ⟨Δ, L, U, M, R, hdecls, hL, hU, hM, hbind, hunb, hmode, himp,
              hsort', hseen, hreads, hRnd, hRnew, hRseen⟩
          exact ⟨Δ, L, U, M, R, hdecls, hL, hU, hM, hbind, hunb, hmode, himp,
            hsort', hseen, hreads, hRnd, hRnew, hRseen⟩
        · rw [if_neg hp] at h
          cases hchild : run fs fuel (.imp (.path p) (qInsert p seen)) with
          | none => rw [hchild] at h; cases h
          | some res =>
            rw [hchild] at h
            cases res with
            | error e => cases h
            | ok child =>
              have hchildInv := ih _ _ hchild (qInsert_sorted hsorted p)
              rcases hchildInv with
                ⟨Lc, Uc, Mc, Rc, hLc, hUc, hMc, hbindc, hunbc, hmodec, himpc,
                  hsortc, hseenc, hreadsc, hRcnd, hRcnew, hRcseen⟩
              have hcont := ih _ _ h hsortc
              rcases hcont with
                ⟨Δ₂, L₂, U₂, M₂, R₂, hdecls₂, hL₂, hU₂, hM₂, hbind₂, hunb₂,
                  hmode₂, himp₂, hsort₂, hseen₂, hreads₂, hR₂nd, hR₂new, hR₂seen⟩
              refine ⟨child.decls ++ Δ₂, Lc ++ L₂, Uc ++ U₂, Mc ++ M₂,
                child.reads ++ R₂, ?_, ?_, ?_, ?_, ?_, ?_, ?_, himp₂, hsort₂,
                ?_, ?_, ?_, ?_, ?_⟩
              · rw [hdecls₂, List.append_assoc]
              · exact declBindings_append hLc hL₂
              · exact declUnbinds_append hUc hU₂
              · exact declModes_append hMc hM₂
              · rw [hbind₂, hbindc, mergeFold_mergeFold, ← List.foldl_append]
              · rw [hunb₂, hunbc, List.append_assoc]
              · rw [hmode₂, hmodec, List.append_assoc]
              · intro x hx
                exact hseen₂ x (hseenc x (mem_qInsert_of_mem hx p))
              · rw [hreads₂, hreadsc, List.append_assoc]
              · -- the reads of the child and of the continuation are
                -- pairwise fresh, hence jointly duplicate-free
                rw [hreadsc]
                have hpseen : p ∈ child.seen :=
                  hseenc p (self_mem_qInsert p seen)
                have hpRc : p ∉ Rc := fun hc =>
                  hRcnew p hc (self_mem_qInsert p seen)
                have hpR₂ : p ∉ R₂ := fun hc => hR₂new p hc hpseen
                have hdisj : ∀ q ∈ Rc, q ∉ R₂ := fun q hq hc =>
                  hR₂new q hc (hRcseen q hq)
                rw [List.nodup_append]
                refine ⟨List.nodup_cons.mpr ⟨hpRc, hRcnd⟩, hR₂nd, ?_⟩
                intro q hq
                rcases List.mem_cons.mp hq with rfl | hq
                · exact hpR₂
                · exact hdisj q hq
              · intro q hq
                rw [hreadsc] at hq
                rcases List.mem_append.mp hq with hq | hq
                · rcases List.mem_cons.mp hq with rfl | hq
                  · exact hp
                  · exact fun hc => hRcnew q hq (mem_qInsert_of_mem hc p)
                · exact fun hc =>
                    hR₂new q hq (hseenc q (mem_qInsert_of_mem hc p))
              · intro q hq
                rw [hreadsc] at hq
                rcases List.mem_append.mp hq with hq | hq
                · rcases List.mem_cons.mp hq with rfl | hq
                  · exact hseen₂ q (hseenc q (self_mem_qInsert q seen))
                  · exact hseen₂ q (hRcseen q hq)
                · exact hR₂seen q hq

/-- Characterization of a successful `SwhkdParser::from`: writing `L`,
`U`, `M` for the document-order binding, unbind and mode lists of the
trace, the final bindings are the last-write-wins merge of `L` with
every binding whose definition occurs in `U` removed; the unbinds are
`U`, the modes are `M`, and the import set is the sorted seen set. -/
theorem parserFrom_char {fs : Fs} {fuel : Nat} {input : ParserInput}
    {out : ParseOut} (h : parserFrom fs fuel input = some (.ok out)) :
    ∃ L U M R,
      declBindings out.decls = .ok L ∧ declUnbinds out.decls = .ok U ∧
      declModes out.decls = .ok M ∧
      out.cfg.bindings =
        (L.foldl mergeBinding []).filter (fun b => b.definition ∉ U) ∧
      out.cfg.unbinds = U ∧ out.cfg.modes = M ∧
      SortedQ out.cfg.imports ∧
      out.reads = entryReads input ++ R ∧ R.Nodup ∧
      (∀ p ∈ R, p ∈ out.cfg.imports) := by
  unfold parserFrom at h
  split at h
  · cases h
  · cases h
  · next rout hrun =>
    have hinv := run_inv fs fuel (.imp input []) rout hrun
      (by simp [SortedQ])
    rcases hinv with
      ⟨L, U, M, R, hL, hU, hM, hbind, hunb, hmode, _himp, hsort, _hseen,
        hreads, hRnd, _hRnew, hRseen⟩
    cases h
    refine ⟨L, U, M, R, hL, hU, hM, ?_, ?_, hmode, hsort, hreads, hRnd, hRseen⟩
    · have hnd : NodupDefs (L.foldl mergeBinding []) :=
        nodupDefs_mergeFold (by simp [NodupDefs, defsOf]) L
      rw [hunb, hbind]
      exact removalFold_eq_filter hnd U
    · exact hunb

/-! ### Omission stripping -/

theorem omission_not_mem_erase (s : ModSet) :
    Modifier.Omission ∉ ModSet.erase .Omission s := by
  simp [ModSet.erase]

theorem bindingParser_omission {b : BindingDecl} {bs : List Binding}
    (h : bindingParser b = .ok bs) :
    ∀ x ∈ bs, Modifier.Omission ∉ x.definition.modifiers := by
  unfold bindingParser at h
  cases hst : processComponents b.components with
  | error e => rw [hst] at h; simp [Bind.bind, Except.bind] at h
  | ok st =>
    rw [hst] at h
    simp only [Bind.bind, Except.bind] at h
    split at h
    · cases h
    · injection h with h
      subst h
      intro x hx
      rcases List.mem_map.mp hx with ⟨y, _, rfl⟩
      exact omission_not_mem_erase _

theorem declBindings_omission {ds : List Decl} {L : List Binding}
    (h : declBindings ds = .ok L) :
    ∀ x ∈ L, Modifier.Omission ∉ x.definition.modifiers := by
  induction ds generalizing L with
  | nil =>
    simp only [declBindings] at h
    cases h
    simp
  | cons d t ih =>
    cases d with
    | binding b =>
      simp only [declBindings] at h
      cases hb : bindingParser b with
      | error e => rw [hb] at h; simp [Bind.bind, Except.bind] at h
      | ok bs =>
        rw [hb] at h
        cases ht : declBindings t with
        | error e => rw [ht] at h; simp [Bind.bind, Except.bind] at h
        | ok r =>
          rw [ht] at h
          simp only [Bind.bind, Except.bind] at h
          injection h with h
          subst h
          intro x hx
          rcases List.mem_append.mp hx with hx | hx
          · exact bindingParser_omission hb x hx
          · exact ih ht x hx
    | unbind u => exact ih (by simpa only [declBindings] using h)
    | mode m => exact ih (by simpa only [declBindings] using h)
    | imp fl => exact ih (by simpa only [declBindings] using h)

/-- Bindings of the binding declarations of a mode block, in order. -/
def modeComponentBindings : List ModeComponent → Except ParseErr (List Binding)
  | [] => .ok []
  | .binding b :: t => do
    let x ← bindingParser b
    let r ← modeComponentBindings t
    .ok (x ++ r)
  | _ :: t => modeComponentBindings t

/-- Unbind definitions of a mode block, in order. -/
def modeComponentUnbinds : List ModeComponent → Except ParseErr (List Definition)
  | [] => .ok []
  | .unbind u :: t => do
    let x ← unbindParser u
    let r ← modeComponentUnbinds t
    .ok (x ++ r)
  | _ :: t => modeComponentUnbinds t

theorem modeParser_go {cs : List ModeComponent} : ∀ {m₀ m : Mode},
    cs.foldlM modeStep m₀ = .ok m →
    ∃ B Un, modeComponentBindings cs = .ok B ∧ modeComponentUnbinds cs = .ok Un ∧
      m.bindings = m₀.bindings ++ B ∧ m.unbinds = m₀.unbinds ++ Un := by
  induction cs with
  | nil =>
    intro m₀ m h
    simp only [List.foldlM_nil] at h
    cases h
    exact ⟨[], [], rfl, rfl, by simp, by simp⟩
  | cons c t ih =>
    intro m₀ m h
    rw [List.foldlM_cons] at h
    cases hc : modeStep m₀ c with
    | error e => rw [hc] at h; simp [Bind.bind, Except.bind] at h
    | ok m₁ =>
      rw [hc] at h
      simp only [Bind.bind, Except.bind] at h
      rcases ih h with ⟨B, Un, hB, hUn, hbind, hunb⟩
      cases c with
      | binding b =>
        cases hb : bindingParser b with
        | error e => rw [modeStep, hb] at hc; simp [Bind.bind, Except.bind] at hc
        | ok bs =>
          rw [modeStep, hb] at hc
          simp only [Bind.bind, Except.bind] at hc
          cases hc
          refine ⟨bs ++ B, Un, ?_, ?_, ?_, ?_⟩
          · simp only [modeComponentBindings, hb, Bind.bind, Except.bind, hB]
          · simpa only [modeComponentUnbinds] using hUn
          · rw [hbind]; simp
          · simpa using hunb
      | unbind u =>
        cases hb : unbindParser u with
        | error e => rw [modeStep, hb] at hc; simp [Bind.bind, Except.bind] at hc
        | ok us =>
          rw [modeStep, hb] at hc
          simp only [Bind.bind, Except.bind] at hc
          cases hc
          refine ⟨B, us ++ Un, ?_, ?_, ?_, ?_⟩
          · simpa only [modeComponentBindings] using hB
          · simp only [modeComponentUnbinds, hb, Bind.bind, Except.bind, hUn]
          · simpa using hbind
          · rw [hunb]; simp
      | modename s =>
        rw [modeStep] at hc
        cases hc
        exact ⟨B, Un, by simpa only [modeComponentBindings] using hB,
          by simpa only [modeComponentUnbinds] using hUn, by simpa using hbind,
          by simpa using hunb⟩
      | oneoff =>
        rw [modeStep] at hc
        cases hc
        exact ⟨B, Un, by simpa only [modeComponentBindings] using hB,
          by simpa only [modeComponentUnbinds] using hUn, by simpa using hbind,
          by simpa using hunb⟩
      | swallow =>
        rw [modeStep] at hc
        cases hc
        exact ⟨B, Un, by simpa only [modeComponentBindings] using hB,
          by simpa only [modeComponentUnbinds] using hUn, by simpa using hbind,
          by simpa using hunb⟩
      | other =>
        rw [modeStep] at hc
        cases hc
        exact ⟨B, Un, by simpa only [modeComponentBindings] using hB,
          by simpa only [modeComponentUnbinds] using hUn, by simpa using hbind,
          by simpa using hunb⟩

/-- `mode_parser` characterized: the mode's binding list is the plain
concatenation of its binding declarations' results (duplicates kept),
the unbind list is collected, and neither is filtered by the other. -/
theorem modeParser_char {cs : List ModeComponent} {m : Mode}
    (h : modeParser cs = .ok m) :
    ∃ B Un, modeComponentBindings cs = .ok B ∧ modeComponentUnbinds cs = .ok Un ∧
      m.bindings = B ∧ m.unbinds = Un := by
  rcases modeParser_go h with ⟨B, Un, hB, hUn, hbind, hunb⟩
  exact ⟨B, Un, hB, hUn, by simpa [Mode.default] using hbind,
    by simpa [Mode.default] using hunb⟩

theorem modeComponentBindings_omission {cs : List ModeComponent}
    {B : List Binding} (h : modeComponentBindings cs = .ok B) :
    ∀ x ∈ B, Modifier.Omission ∉ x.definition.modifiers := by
  induction cs generalizing B with
  | nil =>
    simp only [modeComponentBindings] at h
    cases h
    simp
  | cons c t ih =>
    cases c with
    | binding b =>
      simp only [modeComponentBindings] at h
      cases hb : bindingParser b with
      | error e => rw [hb] at h; simp [Bind.bind, Except.bind] at h
      | ok bs =>
        rw [hb] at h
        cases ht : modeComponentBindings t with
        | error e => rw [ht] at h; simp [Bind.bind, Except.bind] at h
        | ok r =>
          rw [ht] at h
          simp only [Bind.bind, Except.bind] at h
          injection h with h
          subst h
          intro x hx
          rcases List.mem_append.mp hx with hx | hx
          · exact bindingParser_omission hb x hx
          · exact ih ht x hx
    | modename s => exact ih (by simpa only [modeComponentBindings] using h)
    | unbind u => exact ih (by simpa only [modeComponentBindings] using h)
    | oneoff => exact ih (by simpa only [modeComponentBindings] using h)
    | swallow => exact ih (by simpa only [modeComponentBindings] using h)
    | other => exact ih (by simpa only [modeComponentBindings] using h)

theorem declModes_omission {ds : List Decl} {M : List Mode}
    (h : declModes ds = .ok M) :
    ∀ m ∈ M, ∀ x ∈ m.bindings, Modifier.Omission ∉ x.definition.modifiers := by
  induction ds generalizing M with
  | nil =>
    simp only [declModes] at h
    cases h
    simp
  | cons d t ih =>
    cases d with
    | mode mc =>
      simp only [declModes] at h
      cases hb : modeParser mc with
      | error e => rw [hb] at h; simp [Bind.bind, Except.bind] at h
      | ok md =>
        rw [hb] at h
        cases ht : declModes t with
        | error e => rw [ht] at h; simp [Bind.bind, Except.bind] at h
        | ok r =>
          rw [ht] at h
          simp only [Bind.bind, Except.bind] at h
          injection h with h
          subst h
          intro m hm
          rcases List.mem_cons.mp hm with rfl | hm
          · rcases modeParser_char hb with ⟨B, Un, hB, _, hbind, _⟩
            rw [hbind]
            exact modeComponentBindings_omission hB
          · exact ih ht m hm
    | binding b => exact ih (by simpa only [declModes] using h)
    | unbind u => exact ih (by simpa only [declModes] using h)
    | imp fl => exact ih (by simpa only [declModes] using h)

theorem mem_defsOf {l : List Binding} {d : Definition} (h : d ∈ defsOf l) :
    ∃ b ∈ l, b.definition = d := List.mem_map.mp h

/-! ### Claim theorems -/

/-- C1 (amended): for every successfully parsed input whose
document-order binding list `L` contains two or more bindings with
Definition `D`, provided `D` is not removed by the root unbinds list,
the final Configuration contains exactly one Binding with Definition
`D`; its command and mode instructions are those of the last
occurrence in document order; the merged list keeps first-occurrence
positions (its definitions are the first-occurrence deduplication of
the document-order definitions); and no two final Bindings share a
Definition. -/
theorem duplicate_definitions_last_write_wins
    {fs : Fs} {fuel : Nat} {input : ParserInput} {out : ParseOut}
    {L : List Binding} {D : Definition}
    (h : parserFrom fs fuel input = some (.ok out))
    (hL : declBindings out.decls = .ok L)
    (hdup : 2 ≤ (L.filter (fun b => b.definition = D)).length)
    (hnotun : D ∉ out.cfg.unbinds) :
    (out.cfg.bindings.filter (fun b => b.definition = D)).length = 1 ∧
    (∀ b ∈ out.cfg.bindings, b.definition = D →
      ∃ c, lastOcc L D = some c ∧ b.command = c.command ∧
        b.mode_instructions = c.mode_instructions) ∧
    defsOf (L.foldl mergeBinding []) = dkf (defsOf L) ∧
    NodupDefs out.cfg.bindings := by
  rcases parserFrom_char h with
    ⟨L', U, M, R, hL', hU, hM, hbind, hunb, hmode, _, _, _, _⟩
  have hLL : L' = L := by
    rw [hL] at hL'
    injection hL' with h'
    exact h'.symm
  rw [hLL] at hbind
  have hnd : NodupDefs (L.foldl mergeBinding []) :=
    nodupDefs_mergeFold (by simp [NodupDefs, defsOf]) L
  have hDdefs : D ∈ defsOf L := by
    have hne : L.filter (fun b => b.definition = D) ≠ [] := by
      intro hc
      rw [hc] at hdup
      simp at hdup
    rcases List.exists_mem_of_ne_nil _ hne with ⟨b, hb⟩
    rcases List.mem_filter.mp hb with ⟨hbl, hbd⟩
    have : b.definition = D := by simpa using hbd
    exact this ▸ List.mem_map_of_mem _ hbl
  have hDmerged : D ∈ defsOf (L.foldl mergeBinding []) := by
    rw [mergeFold_defs_dkf]
    exact mem_dkf.mpr hDdefs
  have hnotU : D ∉ U := hunb ▸ hnotun
  refine ⟨?_, ?_, mergeFold_defs_dkf L, ?_⟩
  · rw [hbind, List.filter_filter]
    have hcongr :
        (L.foldl mergeBinding []).filter
          (fun b => decide (b.definition = D) && decide (b.definition ∉ U)) =
        (L.foldl mergeBinding []).filter (fun b => b.definition = D) := by
      apply List.filter_congr
      intro b _
      by_cases hb : b.definition = D
      · simp [hb, hnotU]
      · simp [hb]
    rw [hcongr, filter_length_of_nodupDefs hnd D, if_pos hDmerged]
  · intro b hb hbD
    rw [hbind] at hb
    have hbm : b ∈ L.foldl mergeBinding [] := (List.mem_filter.mp hb).1
    have := (mergeFold_content (by simp [NodupDefs, defsOf]) L b hbm).1
      (hbD ▸ hDdefs)
    rcases this with ⟨c, hc, hcc, hci⟩
    exact ⟨c, hbD ▸ hc, hcc, hci⟩
  · rw [hbind]
    exact nodupDefs_filter hnd _

/-- C2: every Binding in the returned Configuration, both at the root
and inside every Mode, has the `Omission` modifier absent from its
modifier set. -/
theorem final_bindings_omission_free
    {fs : Fs} {fuel : Nat} {input : ParserInput} {out : ParseOut}
    (h : parserFrom fs fuel input = some (.ok out)) :
    (∀ b ∈ out.cfg.bindings, Modifier.Omission ∉ b.definition.modifiers) ∧
    (∀ m ∈ out.cfg.modes, ∀ b ∈ m.bindings,
      Modifier.Omission ∉ b.definition.modifiers) := by
  rcases parserFrom_char h with
    ⟨L, U, M, R, hL, hU, hM, hbind, hunb, hmode, _, _, _, _⟩
  constructor
  · intro b hb
    rw [hbind] at hb
    have hbm : b ∈ L.foldl mergeBinding [] := (List.mem_filter.mp hb).1
    have hdefs : b.definition ∈ defsOf L := by
      have : b.definition ∈ defsOf (L.foldl mergeBinding []) :=
        List.mem_map_of_mem _ hbm
      rw [mergeFold_defs_dkf] at this
      exact mem_dkf.mp this
    rcases mem_defsOf hdefs with ⟨c, hcl, hcd⟩
    rw [← hcd]
    exact declBindings_omission hL c hcl
  · intro m hm
    rw [hmode] at hm
    exact declModes_omission hM m hm

/-- C3: any Definition produced by a root-level `ignore` declaration
(in the root file or any imported file) is absent from the final
bindings; the Configuration's unbind list is exactly the
document-order concatenation of those root-level ignore results. -/
theorem root_unbinds_remove_bindings
    {fs : Fs} {fuel : Nat} {input : ParserInput} {out : ParseOut}
    {U : List Definition} {D : Definition}
    (h : parserFrom fs fuel input = some (.ok out))
    (hU : declUnbinds out.decls = .ok U)
    (hD : D ∈ U) :
    out.cfg.unbinds = U ∧ ∀ b ∈ out.cfg.bindings, b.definition ≠ D := by
  rcases parserFrom_char h with
    ⟨L, U', M, R, hL, hU', hM, hbind, hunb, hmode, _, _, _, _⟩
  have hUU : U' = U := by
    rw [hU] at hU'
    injection hU' with h'
    exact h'.symm
  rw [hUU] at hbind hunb
  refine ⟨hunb, ?_⟩
  intro b hb hbD
  rw [hbind] at hb
  have := (List.mem_filter.mp hb).2
  have hnot : b.definition ∉ U := by simpa using this
  exact hnot (hbD ▸ hD)

/-- C10: inside a mode block, bindings are appended in declaration
order with no last-write-wins merge and the mode's ignore list is
stored, but never removes any binding; the pipeline carries every mode
through to the final Configuration unchanged, in document order. -/
theorem mode_blocks_no_merge_no_unbind :
    (∀ (cs : List ModeComponent) (m : Mode), modeParser cs = .ok m →
      ∃ B Un, modeComponentBindings cs = .ok B ∧
        modeComponentUnbinds cs = .ok Un ∧ m.bindings = B ∧ m.unbinds = Un) ∧
    (∀ (fs : Fs) (fuel : Nat) (input : ParserInput) (out : ParseOut),
      parserFrom fs fuel input = some (.ok out) →
      ∃ M, declModes out.decls = .ok M ∧ out.cfg.modes = M) := by
  constructor
  · intro cs m h
    exact modeParser_char h
  · intro fs fuel input out h
    rcases parserFrom_char h with
      ⟨L, U, M, R, hL, hU, hM, hbind, hunb, hmode, _, _, _, _⟩
    exact ⟨M, hM, hmode⟩

/-- C9 (amended): the escapable set is `{ } , \ - + ~ @` (backslash
included, pipe excluded); exactly-two-character backslash escapes of
those characters drop the backslash; a two-character escape of any
other character aborts the process (assertion failure); any other
string — including longer strings containing escapes — is returned
unchanged. -/
theorem unescape_behavior :
    (∀ c : Char, c ∈ ['{', '}', ',', '\\', '-', '+', '~', '@'] →
      unescape (String.mk ['\\', c]) = .ok (String.singleton c)) ∧
    (∀ c : Char, c ∉ ['{', '}', ',', '\\', '-', '+', '~', '@'] →
      unescape (String.mk ['\\', c]) =
        .error (.panicked "unescape: assertion failed on escaped character")) ∧
    (∀ l : List Char, (∀ c, l ≠ ['\\', c]) →
      unescape (String.mk l) = .ok (String.mk l)) := by
  refine ⟨?_, ?_, ?_⟩
  · intro c hc
    unfold unescape
    have : (String.mk ['\\', c]).toList = ['\\', c] := rfl
    rw [this]
    simp [hc]
  · intro c hc
    unfold unescape
    have : (String.mk ['\\', c]).toList = ['\\', c] := rfl
    rw [this]
    simp [hc]
  · intro l hl
    unfold unescape
    have htl : (String.mk l).toList = l := rfl
    rw [htl]
    match l, hl with
    | [], _ => rfl
    | [c], _ => rfl
    | c :: d :: e :: t, _ => rfl
    | [c, d], hl =>
      by_cases hc : c = '\\'
      · subst hc
        exact absurd rfl (hl d)
      · simp [hc]

/-- Helper for C4: on equal cross-product counts `binding_parser`
zips definitions with commands by index and strips omissions. -/
theorem bindingParser_of_parity {b : BindingDecl} {st : BState}
    (hst : processComponents b.components = .ok st)
    (heq : (compile st.uncompiled).length =
      ((multiCartesianProduct st.comm).map String.join).length) :
    bindingParser b = .ok
      ((List.zipWith (fun d c => Binding.mk d c (st.enters ++ st.escapes))
        (compile st.uncompiled)
        ((multiCartesianProduct st.comm).map String.join)).map stripOmission) := by
  unfold bindingParser
  rw [hst]
  simp only [Bind.bind, Except.bind]
  rw [if_neg (by simpa using heq)]

/-- C4 (amended): assuming the component walk succeeds, a binding
declaration fails — with a grammar error whose message is exactly
"the number of possible binding variants N does not equal the number
of possible command variants M." and whose span is the whole
declaration — if and only if the key-side cross product size N differs
from the command-side cross product size M; when they agree, the
definitions and commands are paired by index. -/
theorem parity_check_iff {b : BindingDecl} {st : BState} {N M : Nat}
    (hst : processComponents b.components = .ok st)
    (hN : N = (compile st.uncompiled).length)
    (hM : M = ((multiCartesianProduct st.comm).map String.join).length) :
    (bindingParser b = .error (.grammar (parityMsg N M) b.span) ↔ N ≠ M) ∧
    (N = M → bindingParser b = .ok
      ((List.zipWith (fun d c => Binding.mk d c (st.enters ++ st.escapes))
        (compile st.uncompiled)
        ((multiCartesianProduct st.comm).map String.join)).map stripOmission)) := by
  constructor
  · constructor
    · intro herr hNM
      rw [bindingParser_of_parity hst (hN ▸ hM ▸ hNM)] at herr
      cases herr
    · intro hNM
      unfold bindingParser
      rw [hst]
      simp only [Bind.bind, Except.bind]
      rw [if_pos (by rw [← hN, ← hM]; simpa using hNM), ← hN, ← hM]
  · intro hNM
    exact bindingParser_of_parity hst (hN ▸ hM ▸ hNM)

theorem parse_key_fold_attr {t : KeyToken} :
    ∀ {st : KeyAttribute × String} {r : KeyAttribute × String},
    t.foldlM
      (fun (st : KeyAttribute × String) part =>
        match part with
        | .send => Except.ok (st.1.orSend, st.2)
        | .onRelease => Except.ok (st.1.orOnRelease, st.2)
        | .keyText s => do
          let k ← unescape (lowerStr s)
          Except.ok (st.1, k)
        | .other => Except.ok st) st = .ok r →
    r.1 = ⟨st.1.send || decide (KeyTokenPart.send ∈ t),
           st.1.onRelease || decide (KeyTokenPart.onRelease ∈ t)⟩ := by
  induction t with
  | nil =>
    intro st r h
    simp only [List.foldlM_nil] at h
    cases h
    simp
  | cons part rest ih =>
    intro st r h
    rw [List.foldlM_cons] at h
    cases part with
    | send =>
      simp only [Bind.bind, Except.bind] at h
      have := ih h
      rw [this]
      simp [KeyAttribute.orSend]
    | onRelease =>
      simp only [Bind.bind, Except.bind] at h
      have := ih h
      rw [this]
      simp [KeyAttribute.orOnRelease]
    | keyText s =>
      cases hu : unescape (lowerStr s) with
      | error e =>
        simp only [Bind.bind, Except.bind, hu] at h
        simp [Except.bind] at h
      | ok k =>
        simp only [Bind.bind, Except.bind, hu] at h
        have := ih h
        rw [this]
        simp
    | other =>
      simp only [Bind.bind, Except.bind] at h
      have := ih h
      rw [this]
      simp

/-- The attribute of a parsed key token is exactly the bitset of its
prefix parts, independent of their order. -/
theorem parse_key_attr {t : KeyToken} {r : KeyRepr} (h : parse_key t = .ok r) :
    r.attr = ⟨decide (KeyTokenPart.send ∈ t), decide (KeyTokenPart.onRelease ∈ t)⟩ := by
  unfold parse_key at h
  cases hf : t.foldlM
      (fun (st : KeyAttribute × String) part =>
        match part with
        | .send => Except.ok (st.1.orSend, st.2)
        | .onRelease => Except.ok (st.1.orOnRelease, st.2)
        | .keyText s => do
          let k ← unescape (lowerStr s)
          Except.ok (st.1, k)
        | .other => Except.ok st) (KeyAttribute.none, "") with
  | error e => rw [hf] at h; simp [Bind.bind, Except.bind] at h
  | ok p =>
    rw [hf] at h
    simp only [Bind.bind, Except.bind] at h
    injection h with h
    subst h
    have := parse_key_fold_attr hf
    simpa [KeyAttribute.none] using this

theorem tryIntoKey_attr {r : KeyRepr} {k : Key} (h : tryIntoKey r = .ok k) :
    k.attr = r.attr := by
  unfold tryIntoKey at h
  cases hc : convert r.key with
  | error e => rw [hc] at h; simp [Bind.bind, Except.bind] at h
  | ok code =>
    rw [hc] at h
    simp only [Bind.bind, Except.bind] at h
    injection h with h
    subst h
    rfl

/-- Keys produced by expanding a key-side range always carry
`KeyAttribute::None`, regardless of the (equal) attributes on the
bounds. -/
theorem mapM_keys_attr_none {cl : List Char} : ∀ {ks : List Key},
    cl.mapM (fun ch => tryIntoKey ⟨String.singleton ch, KeyAttribute.none⟩) =
      .ok ks →
    ∀ k ∈ ks, k.attr = KeyAttribute.none := by
  induction cl with
  | nil =>
    intro ks h
    simp only [List.mapM_nil] at h
    cases h
    simp
  | cons c t ih =>
    intro ks h
    simp only [List.mapM_cons] at h
    cases hk : tryIntoKey ⟨String.singleton c, KeyAttribute.none⟩ with
    | error e => rw [hk] at h; simp [Bind.bind, Except.bind, Pure.pure] at h
    | ok key =>
      rw [hk] at h
      cases ht : t.mapM
          (fun ch => tryIntoKey ⟨String.singleton ch, KeyAttribute.none⟩) with
      | error e => rw [ht] at h; simp [Bind.bind, Except.bind, Pure.pure] at h
      | ok rest =>
        rw [ht] at h
        simp only [Bind.bind, Except.bind, Pure.pure, Except.pure] at h
        injection h with h
        subst h
        intro k hk'
        rcases List.mem_cons.mp hk' with rfl | hk'
        · exact tryIntoKey_attr hk
        · exact ih ht k hk'

theorem range_keys_attr_none {lo hi : Char} {ks : List Key}
    (h : (charRange lo hi).mapM
      (fun ch => tryIntoKey ⟨String.singleton ch, KeyAttribute.none⟩) = .ok ks) :
    ∀ k ∈ ks, k.attr = KeyAttribute.none :=
  mapM_keys_attr_none h

/-- Mismatched timing attributes on range bounds fail with the exact
message of `range.rs`. -/
theorem expandKeys_attr_mismatch {lower upper : KeyToken} {lo hi : KeyRepr}
    (hl : parse_key lower = .ok lo) (hu : parse_key upper = .ok hi)
    (hne : lo.attr ≠ hi.attr) (span : String) :
    expandKeys lower upper span =
      .error (.grammar "range bounds must have the same timing attributes" span) := by
  unfold expandKeys
  rw [hl, hu]
  simp only [Bind.bind, Except.bind]
  rw [if_pos hne]

/-- Every compiled definition's key is one of the accumulated keys. -/
theorem compile_keys {st : DefinitionUncompiled} :
    ∀ d ∈ compile st, d.key ∈ st.keys := by
  intro d hd
  unfold compile at hd
  by_cases hm : st.modifiers.isEmpty
  · rw [if_pos hm] at hd
    rcases List.mem_map.mp hd with ⟨k, hk, rfl⟩
    exact hk
  · rw [if_neg hm] at hd
    rcases List.mem_flatMap.mp hd with ⟨ms, _, hmem⟩
    rcases List.mem_map.mp hmem with ⟨k, hk, rfl⟩
    exact hk

/-- C6 (amended): a parsed key token's attribute is exactly the bitset
of its `~`/`@` prefixes in either order, and the evdev resolution
keeps it, so plain keys and shorthand keys carry their token's bitset;
keys expanded from a key-side range always carry `None` (the bounds'
equal attributes are checked and then discarded); range bounds with
different attributes fail with "range bounds must have the same timing
attributes"; and every compiled definition's key is drawn from the
accumulated key list. -/
theorem key_attribute_from_prefixes :
    (∀ (t : KeyToken) (r : KeyRepr), parse_key t = .ok r →
      r.attr = ⟨decide (KeyTokenPart.send ∈ t),
        decide (KeyTokenPart.onRelease ∈ t)⟩) ∧
    (∀ (r : KeyRepr) (k : Key), tryIntoKey r = .ok k → k.attr = r.attr) ∧
    (∀ (lo hi : Char) (ks : List Key),
      (charRange lo hi).mapM
        (fun ch => tryIntoKey ⟨String.singleton ch, KeyAttribute.none⟩) = .ok ks →
      ∀ k ∈ ks, k.attr = KeyAttribute.none) ∧
    (∀ (lower upper : KeyToken) (lo hi : KeyRepr) (span : String),
      parse_key lower = .ok lo → parse_key upper = .ok hi →
      lo.attr ≠ hi.attr →
      expandKeys lower upper span =
        .error (.grammar "range bounds must have the same timing attributes" span)) ∧
    (∀ (st : DefinitionUncompiled) (d : Definition), d ∈ compile st →
      d.key ∈ st.keys) := by
  exact ⟨fun t r h => parse_key_attr h,
    fun r k h => tryIntoKey_attr h,
    fun lo hi ks h => range_keys_attr_none h,
    fun lower upper lo hi span hl hu hne => expandKeys_attr_mismatch hl hu hne span,
    fun st d hd => compile_keys d hd⟩

theorem zipWith_mk_commands {defs : List Definition} :
    ∀ {cmds : List String} {I : List ModeInstruction},
    defs.length = cmds.length →
    (List.zipWith (fun d c => Binding.mk d c I) defs cmds).map
      (fun b => b.command) = cmds := by
  induction defs with
  | nil =>
    intro cmds I hlen
    cases cmds with
    | nil => rfl
    | cons c t => cases hlen
  | cons d ds ih =>
    intro cmds I hlen
    cases cmds with
    | nil => cases hlen
    | cons c t =>
      simp only [List.zipWith_cons_cons, List.map_cons]
      rw [ih (by simpa using hlen)]

theorem bindingParser_commands {b : BindingDecl} {st : BState} {bs : List Binding}
    (hst : processComponents b.components = .ok st)
    (h : bindingParser b = .ok bs) :
    bs.map (fun x => x.command) = (multiCartesianProduct st.comm).map String.join := by
  by_cases heq : (compile st.uncompiled).length =
      ((multiCartesianProduct st.comm).map String.join).length
  · rw [bindingParser_of_parity hst heq] at h
    injection h with h
    subst h
    rw [List.map_map]
    have : ((fun x => x.command) ∘ stripOmission) = (fun (x : Binding) => x.command) := by
      funext x
      rfl
    rw [this, zipWith_mk_commands heq]
  · exfalso
    unfold bindingParser at h
    rw [hst] at h
    simp only [Bind.bind, Except.bind] at h
    rw [if_pos (by simpa using heq)] at h
    cases h

theorem doubleAmpersand_collapse (st : BState) (s : String) :
    (st.comm.getLast? = some ["&&"] →
      processCommandSub st (.doubleAmpersand s) = .ok st) ∧
    (st.comm.getLast? ≠ some ["&&"] →
      processCommandSub st (.doubleAmpersand s) =
        .ok { st with comm := st.comm ++ [[s]] }) := by
  constructor
  · intro hlast
    simp only [processCommandSub]
    rw [if_pos hlast]
  · intro hlast
    simp only [processCommandSub]
    rw [if_neg hlast]

/-- C7 (amended): each enumerated command string is the empty-string
join of the chosen segment alternatives, and a `&&` segment is dropped
exactly when the last accumulated segment is the one-element list
`["&&"]`; no post-assembly drop of a trailing `&&` takes place. -/
theorem command_join_and_collapse :
    (∀ (b : BindingDecl) (st : BState) (bs : List Binding),
      processComponents b.components = .ok st → bindingParser b = .ok bs →
      bs.map (fun x => x.command) =
        (multiCartesianProduct st.comm).map String.join) ∧
    (∀ (st : BState) (s : String),
      (st.comm.getLast? = some ["&&"] →
        processCommandSub st (.doubleAmpersand s) = .ok st) ∧
      (st.comm.getLast? ≠ some ["&&"] →
        processCommandSub st (.doubleAmpersand s) =
          .ok { st with comm := st.comm ++ [[s]] })) :=
  ⟨fun _ _ _ hst h => bindingParser_commands hst h,
   fun st s => doubleAmpersand_collapse st s⟩

/-- The mode-instruction event of one command child, if any. -/
def commandEventOf : CommandSub → Option ModeInstruction
  | .enterMode n => some (.enter n)
  | .escapeMode => some .escape
  | _ => none

/-- All mode-instruction events of a binding declaration, in source
order. -/
def modeEvents (cs : List BindingComponent) : List ModeInstruction :=
  cs.flatMap (fun c =>
    match c with
    | .command subs => subs.filterMap commandEventOf
    | .ingest _ => [])

/-- One step of the enter/escape pairing: an Enter pushes onto the
stack; an Escape pops the pending Enter if one exists and is recorded
otherwise. -/
def specModeStep (st : List ModeInstruction × List ModeInstruction)
    (ev : ModeInstruction) : List ModeInstruction × List ModeInstruction :=
  match ev with
  | .enter n => (st.1 ++ [.enter n], st.2)
  | .escape =>
    if st.1.isEmpty then (st.1, st.2 ++ [.escape]) else (st.1.dropLast, st.2)

/-- The surviving Enter stack and the recorded stray Escapes of an
event sequence. -/
def specModeFold (evs : List ModeInstruction) :
    List ModeInstruction × List ModeInstruction :=
  evs.foldl specModeStep ([], [])

theorem processCommandSub_events {st st' : BState} {sub : CommandSub}
    (h : processCommandSub st sub = .ok st') :
    (st'.enters, st'.escapes) =
      match commandEventOf sub with
      | none => (st.enters, st.escapes)
      | some ev => specModeStep (st.enters, st.escapes) ev := by
  cases sub with
  | standalone s =>
    rw [processCommandSub] at h
    injection h with h
    subst h
    rfl
  | shorthand cs =>
    rw [processCommandSub] at h
    cases hc : parseCommandShorthand cs with
    | error e => rw [hc] at h; simp [Bind.bind, Except.bind] at h
    | ok v =>
      rw [hc] at h
      simp only [Bind.bind, Except.bind] at h
      injection h with h
      subst h
      rfl
  | doubleAmpersand s =>
    rw [processCommandSub] at h
    by_cases hlast : st.comm.getLast? = some ["&&"]
    · rw [if_pos hlast] at h
      injection h with h
      subst h
      rfl
    · rw [if_neg hlast] at h
      injection h with h
      subst h
      rfl
  | enterMode n =>
    rw [processCommandSub] at h
    injection h with h
    subst h
    simp [commandEventOf, specModeStep]
  | escapeMode =>
    rw [processCommandSub] at h
    by_cases he : st.enters.isEmpty
    · rw [if_pos he] at h
      injection h with h
      subst h
      simp [commandEventOf, specModeStep, he]
    · rw [if_neg he] at h
      injection h with h
      subst h
      simp [commandEventOf, specModeStep, he]
  | other =>
    rw [processCommandSub] at h
    injection h with h
    subst h
    rfl

theorem subsFold_events {subs : List CommandSub} : ∀ {st st' : BState},
    subs.foldlM processCommandSub st = .ok st' →
    (st'.enters, st'.escapes) =
      (subs.filterMap commandEventOf).foldl specModeStep
        (st.enters, st.escapes) := by
  induction subs with
  | nil =>
    intro st st' h
    simp only [List.foldlM_nil] at h
    cases h
    rfl
  | cons sub t ih =>
    intro st st' h
    rw [List.foldlM_cons] at h
    cases hs : processCommandSub st sub with
    | error e => rw [hs] at h; simp [Bind.bind, Except.bind] at h
    | ok st₁ =>
      rw [hs] at h
      simp only [Bind.bind, Except.bind] at h
      have hstep := processCommandSub_events hs
      rw [List.filterMap_cons]
      cases hev : commandEventOf sub with
      | none =>
        rw [hev] at hstep
        have hstep' : (st₁.enters, st₁.escapes) = (st.enters, st.escapes) := hstep
        rw [ih h, ← hstep']
      | some ev =>
        rw [hev] at hstep
        have hstep' : (st₁.enters, st₁.escapes) =
            specModeStep (st.enters, st.escapes) ev := hstep
        rw [List.foldl_cons, ih h, ← hstep']

theorem componentsFold_events {cs : List BindingComponent} : ∀ {st st' : BState},
    cs.foldlM processComponent st = .ok st' →
    (st'.enters, st'.escapes) =
      (modeEvents cs).foldl specModeStep (st.enters, st.escapes) := by
  induction cs with
  | nil =>
    intro st st' h
    simp only [List.foldlM_nil] at h
    cases h
    rfl
  | cons c t ih =>
    intro st st' h
    rw [List.foldlM_cons] at h
    cases hc : processComponent st c with
    | error e => rw [hc] at h; simp [Bind.bind, Except.bind] at h
    | ok st₁ =>
      rw [hc] at h
      simp only [Bind.bind, Except.bind] at h
      cases c with
      | command subs =>
        rw [processComponent] at hc
        have hstep := subsFold_events hc
        have : modeEvents (BindingComponent.command subs :: t) =
            subs.filterMap commandEventOf ++ modeEvents t := by
          simp [modeEvents]
        rw [this, List.foldl_append, ih h, ← hstep]
      | ingest ic =>
        rw [processComponent] at hc
        cases hi : ingest st.uncompiled ic with
        | error e => rw [hi] at hc; simp [Bind.bind, Except.bind] at hc
        | ok u =>
          rw [hi] at hc
          simp only [Bind.bind, Except.bind] at hc
          injection hc with hc
          subst hc
          have : modeEvents (BindingComponent.ingest ic :: t) = modeEvents t := by
            simp [modeEvents]
          rw [this, ih h]

theorem mem_zipWith_mk {defs : List Definition} :
    ∀ {cmds : List String} {I : List ModeInstruction} {x : Binding},
    x ∈ List.zipWith (fun d c => Binding.mk d c I) defs cmds →
    x.mode_instructions = I := by
  induction defs with
  | nil => intro cmds I x hx; cases hx
  | cons d ds ih =>
    intro cmds I x hx
    cases cmds with
    | nil => cases hx
    | cons c t =>
      rcases List.mem_cons.mp hx with rfl | hx
      · rfl
      · exact ih hx

/-- C8: for every binding declaration that parses, each produced
binding's mode instructions are the surviving Enter stack followed by
the stray Escapes (those seen while the stack was empty), both in
order; Escapes pop pending Enters, so a popped Enter and its pairing
Escape both disappear. -/
theorem mode_instructions_enters_escapes {b : BindingDecl} {bs : List Binding}
    (h : bindingParser b = .ok bs) :
    ∀ x ∈ bs, x.mode_instructions =
      (specModeFold (modeEvents b.components)).1 ++
      (specModeFold (modeEvents b.components)).2 := by
  unfold bindingParser at h
  cases hst : processComponents b.components with
  | error e => rw [hst] at h; simp [Bind.bind, Except.bind] at h
  | ok st =>
    rw [hst] at h
    simp only [Bind.bind, Except.bind] at h
    split at h
    · cases h
    · injection h with h
      subst h
      have hfold := @componentsFold_events b.components BState.init st hst
      have hpair : (st.enters, st.escapes) = specModeFold (modeEvents b.components) := by
        rw [hfold]
        rfl
      intro x hx
      rcases List.mem_map.mp hx with ⟨y, hy, rfl⟩
      have hyi : y.mode_instructions = st.enters ++ st.escapes := mem_zipWith_mk hy
      have : (stripOmission y).mode_instructions = y.mode_instructions := rfl
      rw [this, hyi, ← hpair]

/-! ### Fuel monotonicity, termination -/

theorem run_imp_unfold (fs : Fs) (fuel : Nat) (input : ParserInput)
    (seen : List String) :
    run fs (fuel + 1) (.imp input seen) =
      match readInput fs input with
      | .error e => some (.error e)
      | .ok decls =>
        match processDecls decls with
        | .error e => some (.error e)
        | .ok st =>
          run fs fuel (.loop st.queue seen st.bindings st.unbinds st.modes
            decls (entryReads input)) := rfl

theorem run_loop_nil_unfold (fs : Fs) (fuel : Nat) (seen : List String)
    (bs : List Binding) (us : List Definition) (ms : List Mode) (ds : List Decl)
    (rs : List String) :
    run fs (fuel + 1) (.loop [] seen bs us ms ds rs) =
      some (.ok ⟨⟨bs, us, [], ms⟩, seen, ds, rs⟩) := rfl

theorem run_loop_cons_unfold (fs : Fs) (fuel : Nat) (p : String)
    (rest seen : List String) (bs : List Binding) (us : List Definition)
    (ms : List Mode) (ds : List Decl) (rs : List String) :
    run fs (fuel + 1) (.loop (p :: rest) seen bs us ms ds rs) =
      if p ∈ seen then run fs fuel (.loop rest seen bs us ms ds rs)
      else
        match run fs fuel (.imp (.path p) (qInsert p seen)) with
        | none => none
        | some (.error e) => some (.error e)
        | some (.ok child) =>
          run fs fuel (.loop
            (child.cfg.imports.foldl (fun q f => qInsert f q) rest)
            child.seen (child.cfg.bindings.foldl mergeBinding bs)
            (us ++ child.cfg.unbinds) (ms ++ child.cfg.modes)
            (ds ++ child.decls) (rs ++ child.reads)) := rfl

theorem run_mono {fs : Fs} : ∀ (fuel : Nat) (job : Job) (r : Except ParseErr RunOut),
    run fs fuel job = some r → run fs (fuel + 1) job = some r := by
  intro fuel
  induction fuel with
  | zero => intro job r h; cases h
  | succ fuel ih =>
    intro job r h
    match job with
    | .imp input seen =>
      rw [run_imp_unfold] at h ⊢
      cases hread : readInput fs input with
      | error e => rw [hread] at h; exact h
      | ok decls =>
        rw [hread] at h
        have h' : (match processDecls decls with
            | .error e => some (.error e)
            | .ok st => run fs fuel (.loop st.queue seen st.bindings
                st.unbinds st.modes decls (entryReads input))) = some r := h
        show (match processDecls decls with
          | .error e => some (.error e)
          | .ok st => run fs (fuel + 1) (.loop st.queue seen st.bindings
              st.unbinds st.modes decls (entryReads input))) = some r
        cases hpd : processDecls decls with
        | error e => rw [hpd] at h'; exact h'
        | ok st => rw [hpd] at h'; exact ih _ _ h'
    | .loop [] seen bs us ms ds rs =>
      rw [run_loop_nil_unfold] at h ⊢
      exact h
    | .loop (p :: rest) seen bs us ms ds rs =>
      rw [run_loop_cons_unfold] at h ⊢
      by_cases hp : p ∈ seen
      · rw [if_pos hp] at h ⊢
        exact ih _ _ h
      · rw [if_neg hp] at h ⊢
        cases hchild : run fs fuel (.imp (.path p) (qInsert p seen)) with
        | none => rw [hchild] at h; cases h
        | some res =>
          rw [hchild] at h
          rw [ih _ _ hchild]
          cases res with
          | error e => exact h
          | ok child => exact ih _ _ h

theorem run_imp_read_error {fs : Fs} {input : ParserInput} {e : ParseErr}
    (fuel : Nat) (seen : List String) (hread : readInput fs input = .error e) :
    run fs (fuel + 1) (.imp input seen) = some (.error e) := by
  rw [run_imp_unfold, hread]

theorem run_imp_pd_error {fs : Fs} {input : ParserInput} {decls : List Decl}
    {e : ParseErr} (fuel : Nat) (seen : List String)
    (hread : readInput fs input = .ok decls)
    (hpd : processDecls decls = .error e) :
    run fs (fuel + 1) (.imp input seen) = some (.error e) := by
  rw [run_imp_unfold, hread]
  show (match processDecls decls with
    | .error e => some (.error e)
    | .ok st => run fs fuel (.loop st.queue seen st.bindings st.unbinds
        st.modes decls (entryReads input))) = some (.error e)
  rw [hpd]

theorem run_imp_ok {fs : Fs} {input : ParserInput} {decls : List Decl}
    {st : PState} (fuel : Nat) (seen : List String)
    (hread : readInput fs input = .ok decls)
    (hpd : processDecls decls = .ok st) :
    run fs (fuel + 1) (.imp input seen) =
      run fs fuel (.loop st.queue seen st.bindings st.unbinds st.modes decls
        (entryReads input)) := by
  rw [run_imp_unfold, hread]
  show (match processDecls decls with
    | .error e => some (.error e)
    | .ok st => run fs fuel (.loop st.queue seen st.bindings st.unbinds
        st.modes decls (entryReads input))) =
    run fs fuel (.loop st.queue seen st.bindings st.unbinds st.modes decls
      (entryReads input))
  rw [hpd]

theorem run_loop_skip {fs : Fs} {p : String} {seen : List String}
    (fuel : Nat) (rest : List String) (bs : List Binding) (us : List Definition)
    (ms : List Mode) (ds : List Decl) (rs : List String) (hp : p ∈ seen) :
    run fs (fuel + 1) (.loop (p :: rest) seen bs us ms ds rs) =
      run fs fuel (.loop rest seen bs us ms ds rs) := by
  rw [run_loop_cons_unfold, if_pos hp]

theorem run_loop_child_none {fs : Fs} {p : String} {seen : List String}
    {fuel : Nat} (rest : List String) (bs : List Binding) (us : List Definition)
    (ms : List Mode) (ds : List Decl) (rs : List String) (hp : p ∉ seen)
    (hchild : run fs fuel (.imp (.path p) (qInsert p seen)) = none) :
    run fs (fuel + 1) (.loop (p :: rest) seen bs us ms ds rs) = none := by
  rw [run_loop_cons_unfold, if_neg hp, hchild]

theorem run_loop_child_error {fs : Fs} {p : String} {seen : List String}
    {fuel : Nat} {e : ParseErr} (rest : List String) (bs : List Binding)
    (us : List Definition) (ms : List Mode) (ds : List Decl) (rs : List String)
    (hp : p ∉ seen)
    (hchild : run fs fuel (.imp (.path p) (qInsert p seen)) = some (.error e)) :
    run fs (fuel + 1) (.loop (p :: rest) seen bs us ms ds rs) =
      some (.error e) := by
  rw [run_loop_cons_unfold, if_neg hp, hchild]

theorem run_loop_child_ok {fs : Fs} {p : String} {seen : List String}
    {fuel : Nat} {child : RunOut} (rest : List String) (bs : List Binding)
    (us : List Definition) (ms : List Mode) (ds : List Decl) (rs : List String)
    (hp : p ∉ seen)
    (hchild : run fs fuel (.imp (.path p) (qInsert p seen)) = some (.ok child)) :
    run fs (fuel + 1) (.loop (p :: rest) seen bs us ms ds rs) =
      run fs fuel (.loop
        (child.cfg.imports.foldl (fun q f => qInsert f q) rest)
        child.seen (child.cfg.bindings.foldl mergeBinding bs)
        (us ++ child.cfg.unbinds) (ms ++ child.cfg.modes)
        (ds ++ child.decls) (rs ++ child.reads)) := by
  rw [run_loop_cons_unfold, if_neg hp, hchild]

theorem run_le_mono {fs : Fs} {fuel fuel' : Nat} (hle : fuel ≤ fuel') {job : Job}
    {r : Except ParseErr RunOut} (h : run fs fuel job = some r) :
    run fs fuel' job = some r := by
  induction hle with
  | refl => exact h
  | step _ ih => exact run_mono _ _ _ ih

theorem run_deterministic {fs : Fs} {f g : Nat} {job : Job}
    {r r' : Except ParseErr RunOut} (h : run fs f job = some r)
    (h' : run fs g job = some r') : r = r' := by
  rcases Nat.le_total f g with hle | hle
  · have := run_le_mono hle h
    rw [this] at h'
    injection h'
  · have := run_le_mono hle h'
    rw [this] at h
    injection h
    exact (by assumption : r' = r).symm

/-- The set of paths present in the modelled file system. -/
def pathsOf (fs : Fs) : Finset String := (fs.map Prod.fst).toFinset

/-- The number of file-system paths not yet in the seen set: the
termination measure of the import recursion. -/
def seenMeasure (fs : Fs) (seen : List String) : Nat :=
  (pathsOf fs \ seen.toFinset).card

theorem readInput_ok_mem {fs : Fs} {p : String} {decls : List Decl}
    (h : readInput fs (.path p) = .ok decls) : p ∈ pathsOf fs := by
  simp only [readInput] at h
  cases hf : fs.find? (fun kv => kv.1 = p) with
  | none => rw [hf] at h; cases h
  | some kv =>
    have hmem := List.mem_of_find?_eq_some hf
    have hp := List.find?_some hf
    have : kv.1 = p := by simpa using hp
    unfold pathsOf
    rw [List.mem_toFinset, ← this]
    exact List.mem_map_of_mem _ hmem

theorem readInput_not_mem {fs : Fs} {p : String} (h : p ∉ pathsOf fs) :
    readInput fs (.path p) = .error (.readError p) := by
  simp only [readInput]
  have : fs.find? (fun kv => kv.1 = p) = none := by
    rw [List.find?_eq_none]
    intro kv hkv hc
    have : kv.1 = p := by simpa using hc
    exact h (by
      unfold pathsOf
      rw [List.mem_toFinset, ← this]
      exact List.mem_map_of_mem _ hkv)
  rw [this]

theorem toFinset_qInsert (p : String) (seen : List String) :
    (qInsert p seen).toFinset = insert p seen.toFinset := by
  ext x
  simp [List.mem_toFinset, mem_qInsert]

theorem seenMeasure_lt {fs : Fs} {p : String} {seen : List String}
    (hmem : p ∈ pathsOf fs) (hnot : p ∉ seen) :
    seenMeasure fs (qInsert p seen) < seenMeasure fs seen := by
  unfold seenMeasure
  rw [toFinset_qInsert, Finset.sdiff_insert]
  apply Finset.card_erase_lt_of_mem
  rw [Finset.mem_sdiff]
  exact ⟨hmem, by simpa [List.mem_toFinset] using hnot⟩

theorem seenMeasure_mono {fs : Fs} {seen seen' : List String}
    (hsub : ∀ x ∈ seen, x ∈ seen') :
    seenMeasure fs seen' ≤ seenMeasure fs seen := by
  unfold seenMeasure
  apply Finset.card_le_card
  apply Finset.sdiff_subset_sdiff (Finset.Subset.refl _)
  intro x hx
  rw [List.mem_toFinset] at hx ⊢
  exact hsub x hx

/-- The import recursion terminates: from any sorted seen set, both
the queue loop (for every queue) and a whole `as_import` call (for
every input) produce a result with enough fuel, whatever cycles
the import graph contains. -/
theorem run_terminates (fs : Fs) : ∀ (n : Nat) (seen : List String),
    SortedQ seen → seenMeasure fs seen ≤ n →
    (∀ queue bs us ms ds rs,
      ∃ f r, run fs f (.loop queue seen bs us ms ds rs) = some r) ∧
    (∀ input, ∃ f r, run fs f (.imp input seen) = some r) := by
  intro n
  induction n using Nat.strong_induction_on with
  | _ n IH =>
    intro seen hsorted hn
    have loopPart : ∀ queue bs us ms ds rs,
        ∃ f r, run fs f (.loop queue seen bs us ms ds rs) = some r := by
      intro queue
      induction queue with
      | nil =>
        intro bs us ms ds rs
        exact ⟨1, .ok ⟨⟨bs, us, [], ms⟩, seen, ds, rs⟩,
          run_loop_nil_unfold fs 0 seen bs us ms ds rs⟩
      | cons p rest ihq =>
        intro bs us ms ds rs
        by_cases hp : p ∈ seen
        · rcases ihq bs us ms ds rs with ⟨f, r, hf⟩
          exact ⟨f + 1, r, by rw [run_loop_skip f rest bs us ms ds rs hp]; exact hf⟩
        · by_cases hmem : p ∈ pathsOf fs
          · have hlt : seenMeasure fs (qInsert p seen) < n :=
              lt_of_lt_of_le (seenMeasure_lt hmem hp) hn
            rcases (IH _ hlt (qInsert p seen) (qInsert_sorted hsorted p)
              le_rfl).2 (.path p) with ⟨f₁, r₁, hf₁⟩
            cases r₁ with
            | error e =>
              exact ⟨f₁ + 1, .error e,
                run_loop_child_error rest bs us ms ds rs hp hf₁⟩
            | ok child =>
              rcases run_inv fs f₁ _ _ hf₁ (qInsert_sorted hsorted p) with
                ⟨L, U, M, R, _, _, _, _, _, _, _, hsortc, hseenc, _, _, _, _⟩
              have hm2 : seenMeasure fs child.seen < n :=
                lt_of_le_of_lt (seenMeasure_mono hseenc)
                  (lt_of_lt_of_le (seenMeasure_lt hmem hp) hn)
              rcases (IH _ hm2 child.seen hsortc le_rfl).1
                (child.cfg.imports.foldl (fun q f => qInsert f q) rest)
                (child.cfg.bindings.foldl mergeBinding bs)
                (us ++ child.cfg.unbinds) (ms ++ child.cfg.modes)
                (ds ++ child.decls) (rs ++ child.reads) with ⟨f₂, r₂, hf₂⟩
              refine ⟨max f₁ f₂ + 1, r₂, ?_⟩
              rw [run_loop_child_ok rest bs us ms ds rs hp
                (run_le_mono (le_max_left f₁ f₂) hf₁)]
              exact run_le_mono (le_max_right f₁ f₂) hf₂
          · refine ⟨2, .error (.readError p), ?_⟩
            exact run_loop_child_error rest bs us ms ds rs hp
              (run_imp_read_error 0 (qInsert p seen) (readInput_not_mem hmem))
    refine ⟨loopPart, ?_⟩
    intro input
    cases hread : readInput fs input with
    | error e => exact ⟨1, .error e, run_imp_read_error 0 seen hread⟩
    | ok decls =>
      cases hpd : processDecls decls with
      | error e => exact ⟨1, .error e, run_imp_pd_error 0 seen hread hpd⟩
      | ok st =>
        rcases loopPart st.queue st.bindings st.unbinds st.modes decls
          (entryReads input) with ⟨f, r, hf⟩
        exact ⟨f + 1, r, by rw [run_imp_ok f seen hread hpd]; exact hf⟩

/-- `SwhkdParser::from` terminates on every input and file system. -/
theorem parserFrom_terminates (fs : Fs) (input : ParserInput) :
    ∃ fuel r, parserFrom fs fuel input = some r := by
  rcases (run_terminates fs (seenMeasure fs []) [] (by simp [SortedQ]) le_rfl).2
    input with ⟨f, r, hf⟩
  cases r with
  | error e =>
    refine ⟨f, .error e, ?_⟩
    unfold parserFrom asImport
    rw [hf]
  | ok out =>
    refine ⟨f, .ok ⟨⟨out.cfg.unbinds.foldl removeFirstDef out.cfg.bindings,
      out.cfg.unbinds, out.seen, out.cfg.modes⟩, out.decls, out.reads⟩, ?_⟩
    unfold parserFrom asImport
    rw [hf]

/-! ### Self-include surgery -/

theorem sortedq_ext {l₁ l₂ : List String} (h₁ : SortedQ l₁) (h₂ : SortedQ l₂)
    (hmem : ∀ x, x ∈ l₁ ↔ x ∈ l₂) : l₁ = l₂ := by
  have hanti : ∀ (a b : String), a < b → b < a → a = b := by
    intro a b hab hba
    exact absurd hba (lt_asymm hab)
  have : IsAntisymm String (fun a b => a < b) := ⟨hanti⟩
  refine List.eq_of_perm_of_sorted ?_ h₁ h₂
  exact (List.perm_ext_iff_of_nodup (SortedQ.nodup h₁) (SortedQ.nodup h₂)).mpr hmem

theorem mem_qInsertFold {l : List String} : ∀ {s : List String} {x : String},
    x ∈ l.foldl (fun q f => qInsert f q) s ↔ x ∈ l ∨ x ∈ s := by
  induction l with
  | nil => intro s x; simp
  | cons y t ih =>
    intro s x
    rw [List.foldl_cons, ih]
    simp only [List.mem_cons, mem_qInsert]
    tauto

theorem qInsertFold_qInsert_comm {s : List String} (hs : SortedQ s)
    (q : String) (l : List String) :
    l.foldl (fun q f => qInsert f q) (qInsert q s) =
      qInsert q (l.foldl (fun q f => qInsert f q) s) := by
  apply sortedq_ext
  · exact qInsertFold_sorted (qInsert_sorted hs q) l
  · exact qInsert_sorted (qInsertFold_sorted hs l) q
  · intro x
    rw [mem_qInsertFold, mem_qInsert, mem_qInsert, mem_qInsertFold]
    tauto

theorem qInsert_ne_nil (p : String) (s : List String) : qInsert p s ≠ [] := by
  cases s with
  | nil => simp [qInsert]
  | cons x xs =>
    rw [qInsert]
    by_cases hp : p = x
    · simp [hp]
    · rw [if_neg hp]
      by_cases hlt : p < x
      · simp [hlt]
      · simp [hlt]

theorem processDecl_queue_sorted {st st' : PState} {d : Decl}
    (hs : SortedQ st.queue) (h : processDecl st d = .ok st') :
    SortedQ st'.queue := by
  cases d with
  | binding b =>
    rw [processDecl] at h
    cases hb : bindingParser b with
    | error e => rw [hb] at h; simp [Bind.bind, Except.bind] at h
    | ok bs =>
      rw [hb] at h
      simp only [Bind.bind, Except.bind] at h
      cases h
      exact hs
  | unbind u =>
    rw [processDecl] at h
    cases hb : unbindParser u with
    | error e => rw [hb] at h; simp [Bind.bind, Except.bind] at h
    | ok us =>
      rw [hb] at h
      simp only [Bind.bind, Except.bind] at h
      cases h
      exact hs
  | mode m =>
    rw [processDecl] at h
    cases hb : modeParser m with
    | error e => rw [hb] at h; simp [Bind.bind, Except.bind] at h
    | ok md =>
      rw [hb] at h
      simp only [Bind.bind, Except.bind] at h
      cases h
      exact hs
  | imp fl =>
    rw [processDecl] at h
    cases h
    exact qInsertFold_sorted hs fl

/-- Walking a declaration suffix from two states that differ only by
an extra `q` in the sorted queue: results stay related, and failures
are identical. -/
theorem processDecls_suffix_surgery (q : String) {d₂ : List Decl} :
    ∀ {st : PState}, SortedQ st.queue →
    (∀ {res : PState}, List.foldlM processDecl st d₂ = .ok res →
      List.foldlM processDecl { st with queue := qInsert q st.queue } d₂ =
        .ok { res with queue := qInsert q res.queue }) ∧
    (∀ {e : ParseErr}, List.foldlM processDecl st d₂ = .error e →
      List.foldlM processDecl { st with queue := qInsert q st.queue } d₂ =
        .error e) := by
  induction d₂ with
  | nil =>
    intro st _hs
    constructor
    · intro res h
      simp only [List.foldlM_nil] at h ⊢
      cases h
      rfl
    · intro e h
      simp only [List.foldlM_nil] at h
      cases h
  | cons d t ih =>
    intro st hs
    have step : ∀ {st₁ : PState}, processDecl st d = .ok st₁ →
        processDecl { st with queue := qInsert q st.queue } d =
          .ok { st₁ with queue := qInsert q st₁.queue } := by
      intro st₁ h
      cases d with
      | binding b =>
        rw [processDecl] at h ⊢
        cases hb : bindingParser b with
        | error e =>
          rw [hb] at h
          exact Except.noConfusion
            (show (Except.error e : Except ParseErr PState) = Except.ok st₁ from h)
        | ok bs =>
          rw [hb] at h
          have h' : Except.ok ({ st with
              bindings := bs.foldl mergeBinding st.bindings } : PState) =
              Except.ok st₁ := h
          cases h'
          rfl
      | unbind u =>
        rw [processDecl] at h ⊢
        cases hb : unbindParser u with
        | error e =>
          rw [hb] at h
          exact Except.noConfusion
            (show (Except.error e : Except ParseErr PState) = Except.ok st₁ from h)
        | ok us =>
          rw [hb] at h
          have h' : Except.ok ({ st with unbinds := st.unbinds ++ us } : PState) =
              Except.ok st₁ := h
          cases h'
          rfl
      | mode m =>
        rw [processDecl] at h ⊢
        cases hb : modeParser m with
        | error e =>
          rw [hb] at h
          exact Except.noConfusion
            (show (Except.error e : Except ParseErr PState) = Except.ok st₁ from h)
        | ok md =>
          rw [hb] at h
          have h' : Except.ok ({ st with modes := st.modes ++ [md] } : PState) =
              Except.ok st₁ := h
          cases h'
          rfl
      | imp fl =>
        rw [processDecl] at h ⊢
        cases h
        have hcomm : fl.foldl (fun q f => qInsert f q) (qInsert q st.queue) =
            qInsert q (fl.foldl (fun q f => qInsert f q) st.queue) :=
          qInsertFold_qInsert_comm hs q fl
        rw [show ({ st with queue := qInsert q st.queue } : PState).queue =
          qInsert q st.queue from rfl, hcomm]
    have stepErr : ∀ {e : ParseErr}, processDecl st d = .error e →
        processDecl { st with queue := qInsert q st.queue } d = .error e := by
      intro e h
      cases d with
      | binding b =>
        rw [processDecl] at h ⊢
        cases hb : bindingParser b with
        | error e' =>
          rw [hb] at h
          have h' : (Except.error e' : Except ParseErr PState) = Except.error e := h
          cases h'
          rfl
        | ok bs =>
          rw [hb] at h
          exact Except.noConfusion
            (show Except.ok ({ st with
              bindings := bs.foldl mergeBinding st.bindings } : PState) =
              Except.error e from h)
      | unbind u =>
        rw [processDecl] at h ⊢
        cases hb : unbindParser u with
        | error e' =>
          rw [hb] at h
          have h' : (Except.error e' : Except ParseErr PState) = Except.error e := h
          cases h'
          rfl
        | ok us =>
          rw [hb] at h
          exact Except.noConfusion
            (show Except.ok ({ st with unbinds := st.unbinds ++ us } : PState) =
              Except.error e from h)
      | mode m =>
        rw [processDecl] at h ⊢
        cases hb : modeParser m with
        | error e' =>
          rw [hb] at h
          have h' : (Except.error e' : Except ParseErr PState) = Except.error e := h
          cases h'
          rfl
        | ok md =>
          rw [hb] at h
          exact Except.noConfusion
            (show Except.ok ({ st with modes := st.modes ++ [md] } : PState) =
              Except.error e from h)
      | imp fl =>
        rw [processDecl] at h
        cases h
    constructor
    · intro res h
      rw [List.foldlM_cons] at h ⊢
      cases hd : processDecl st d with
      | error e =>
        rw [hd] at h
        simp [Bind.bind, Except.bind] at h
      | ok st₁ =>
        rw [hd] at h
        simp only [Bind.bind, Except.bind] at h
        rw [step hd]
        simp only [Bind.bind, Except.bind]
        exact (ih (processDecl_queue_sorted hs hd)).1 h
    · intro e h
      rw [List.foldlM_cons] at h ⊢
      cases hd : processDecl st d with
      | error e' =>
        rw [hd] at h
        simp only [Bind.bind, Except.bind] at h
        cases h
        rw [stepErr hd]
        simp only [Bind.bind, Except.bind]
      | ok st₁ =>
        rw [hd] at h
        simp only [Bind.bind, Except.bind] at h
        rw [step hd]
        simp only [Bind.bind, Except.bind]
        exact (ih (processDecl_queue_sorted hs hd)).2 h

theorem foldlM_pd_append : ∀ (l₁ l₂ : List Decl) (st : PState),
    List.foldlM processDecl st (l₁ ++ l₂) =
      (match List.foldlM processDecl st l₁ with
       | .error e => .error e
       | .ok st₁ => List.foldlM processDecl st₁ l₂) := by
  intro l₁
  induction l₁ with
  | nil => intro l₂ st; rfl
  | cons d t ih =>
    intro l₂ st
    rw [List.cons_append, List.foldlM_cons, List.foldlM_cons]
    cases hd : processDecl st d with
    | error e =>
      simp only [Bind.bind, Except.bind]
    | ok st₁ =>
      simp only [Bind.bind, Except.bind]
      exact ih l₂ st₁

theorem foldlM_pd_queue_sorted : ∀ {ds : List Decl} {st st₂ : PState},
    SortedQ st.queue → List.foldlM processDecl st ds = .ok st₂ →
    SortedQ st₂.queue := by
  intro ds
  induction ds with
  | nil =>
    intro st st₂ hs h
    simp only [List.foldlM_nil] at h
    cases h
    exact hs
  | cons d t ih =>
    intro st st₂ hs h
    rw [List.foldlM_cons] at h
    cases hd : processDecl st d with
    | error e =>
      rw [hd] at h
      simp [Bind.bind, Except.bind] at h
    | ok st₁ =>
      rw [hd] at h
      simp only [Bind.bind, Except.bind] at h
      exact ih (processDecl_queue_sorted hs hd) h

/-- The queue accumulated by a whole successful declaration walk is
sorted. -/
theorem processDecls_queue_sorted {ds : List Decl} {st : PState}
    (h : processDecls ds = .ok st) : SortedQ st.queue :=
  @foldlM_pd_queue_sorted _ ⟨[], [], [], []⟩ _ List.Pairwise.nil h

/-- Inserting a self-include declaration anywhere into a file shifts a
successful declaration walk by exactly one `qInsert` of the file's own
path into the pending queue, and leaves every failure unchanged. -/
theorem processDecls_surgery (q : String) (d₁ d₂ : List Decl) :
    (∀ {res : PState}, processDecls (d₁ ++ d₂) = .ok res →
      processDecls (d₁ ++ .imp [q] :: d₂) =
        .ok { res with queue := qInsert q res.queue }) ∧
    (∀ {e : ParseErr}, processDecls (d₁ ++ d₂) = .error e →
      processDecls (d₁ ++ .imp [q] :: d₂) = .error e) := by
  have hsplit := foldlM_pd_append d₁ d₂ ⟨[], [], [], []⟩
  have hsplit2 := foldlM_pd_append d₁ (.imp [q] :: d₂) ⟨[], [], [], []⟩
  cases h₁ : List.foldlM processDecl (⟨[], [], [], []⟩ : PState) d₁ with
  | error e₀ =>
    rw [h₁] at hsplit hsplit2
    have hsA : List.foldlM processDecl (⟨[], [], [], []⟩ : PState) (d₁ ++ d₂) =
        Except.error e₀ := hsplit
    have hsB : List.foldlM processDecl (⟨[], [], [], []⟩ : PState)
        (d₁ ++ Decl.imp [q] :: d₂) = Except.error e₀ := hsplit2
    constructor
    · intro res h
      rw [processDecls] at h
      rw [hsA] at h
      cases h
    · intro e h
      rw [processDecls] at h
      rw [hsA] at h
      rw [processDecls, hsB]
      exact h
  | ok st₁ =>
    rw [h₁] at hsplit hsplit2
    have hsA : List.foldlM processDecl (⟨[], [], [], []⟩ : PState) (d₁ ++ d₂) =
        List.foldlM processDecl st₁ d₂ := hsplit
    have hsB : List.foldlM processDecl (⟨[], [], [], []⟩ : PState)
        (d₁ ++ Decl.imp [q] :: d₂) =
        List.foldlM processDecl st₁ (Decl.imp [q] :: d₂) := hsplit2
    have hs₁ : SortedQ st₁.queue :=
      @foldlM_pd_queue_sorted _ ⟨[], [], [], []⟩ _ List.Pairwise.nil h₁
    have hstep : List.foldlM processDecl st₁ (Decl.imp [q] :: d₂) =
        List.foldlM processDecl { st₁ with queue := qInsert q st₁.queue } d₂ := by
      rw [List.foldlM_cons]
      simp only [Bind.bind, Except.bind]
      rfl
    constructor
    · intro res h
      rw [processDecls] at h
      rw [hsA] at h
      rw [processDecls, hsB, hstep]
      exact (processDecls_suffix_surgery q hs₁).1 h
    · intro e h
      rw [processDecls] at h
      rw [hsA] at h
      rw [processDecls, hsB, hstep]
      exact (processDecls_suffix_surgery q hs₁).2 h


/-- Results related across the self-include surgery: identical errors,
or identical configuration and seen set (the declaration and read
traces are allowed to differ). -/
def ResultRel : Except ParseErr RunOut → Except ParseErr RunOut → Prop
  | .error e, .error e2 => e = e2
  | .ok o, .ok o2 => o.cfg = o2.cfg ∧ o.seen = o2.seen
  | _, _ => False

/-- The simulation relation between a job of the original run and a
job of the run whose file at `q` carries an extra self-include: equal
inputs and accumulators, sorted seen and queue, and a pending queue
that differs by at most one `qInsert` of an already-seen `q`. -/
def JobRel (q : String) : Job → Job → Prop
  | .imp input seen, .imp input2 seen2 =>
      input = input2 ∧ seen = seen2 ∧ SortedQ seen ∧
        (input = .path q → q ∈ seen)
  | .loop queue seen bs us ms _ds _rs, .loop queue2 seen2 bs2 us2 ms2 _ds2 _rs2 =>
      seen = seen2 ∧ bs = bs2 ∧ us = us2 ∧ ms = ms2 ∧ SortedQ seen ∧
        SortedQ queue ∧
        (queue = queue2 ∨ (queue2 = qInsert q queue ∧ q ∈ seen))
  | _, _ => False

/-- The self-include simulation: a run on the modified file system is
matched, error for error and configuration for configuration, by a run
on the original one. -/
theorem run_surgery {fs fs2 : Fs} {q : String} {d₁ d₂ : List Decl}
    (hq : readInput fs (.path q) = .ok (d₁ ++ d₂))
    (hq2 : readInput fs2 (.path q) = .ok (d₁ ++ .imp [q] :: d₂))
    (hne : ∀ p, p ≠ q → readInput fs2 (.path p) = readInput fs (.path p)) :
    ∀ (fuel : Nat) (job job2 : Job), JobRel q job job2 →
      ∀ {r2 : Except ParseErr RunOut}, run fs2 fuel job2 = some r2 →
      ∃ f r, run fs f job = some r ∧ ResultRel r r2 := by
  intro fuel
  induction fuel with
  | zero => intro job job2 _ r2 h; cases h
  | succ fuel ih =>
    intro job job2
    match job, job2 with
    | .imp _ _, .loop _ _ _ _ _ _ _ =>
      intro hrel r2 h
      exact (hrel : False).elim
    | .loop _ _ _ _ _ _ _, .imp _ _ =>
      intro hrel r2 h
      exact (hrel : False).elim
    | .imp input seen, .imp input2 seen2 =>
      intro hrel r2 h
      obtain ⟨rfl, rfl, hss, hside⟩ := hrel
      by_cases hin : input = ParserInput.path q
      · subst hin
        have hqseen : q ∈ seen := hside rfl
        cases hpd : processDecls (d₁ ++ d₂) with
        | error e =>
          have hpd2 : processDecls (d₁ ++ Decl.imp [q] :: d₂) = .error e :=
            (processDecls_surgery q d₁ d₂).2 hpd
          rw [run_imp_pd_error fuel seen hq2 hpd2] at h
          injection h with h
          subst h
          exact ⟨1, .error e, run_imp_pd_error 0 seen hq hpd, rfl⟩
        | ok res =>
          have hpd2 : processDecls (d₁ ++ Decl.imp [q] :: d₂) =
              .ok { res with queue := qInsert q res.queue } :=
            (processDecls_surgery q d₁ d₂).1 hpd
          rw [run_imp_ok fuel seen hq2 hpd2] at h
          have hrel₂ : JobRel q
              (.loop res.queue seen res.bindings res.unbinds res.modes
                (d₁ ++ d₂) (entryReads (ParserInput.path q)))
              (.loop ({ res with queue := qInsert q res.queue } : PState).queue
                seen
                ({ res with queue := qInsert q res.queue } : PState).bindings
                ({ res with queue := qInsert q res.queue } : PState).unbinds
                ({ res with queue := qInsert q res.queue } : PState).modes
                (d₁ ++ Decl.imp [q] :: d₂) (entryReads (ParserInput.path q))) :=
            ⟨rfl, rfl, rfl, rfl, hss, processDecls_queue_sorted hpd,
              Or.inr ⟨rfl, hqseen⟩⟩
          obtain ⟨f, r, hfr, hrr⟩ := ih _ _ hrel₂ h
          exact ⟨f + 1, r, by rw [run_imp_ok f seen hq hpd]; exact hfr, hrr⟩
      · have hre : readInput fs2 input = readInput fs input := by
          cases input with
          | raw decls => rfl
          | path p =>
            refine hne p (fun hc => hin ?_)
            rw [hc]
        cases hread : readInput fs input with
        | error e =>
          rw [run_imp_read_error fuel seen (hre.trans hread)] at h
          injection h with h
          subst h
          exact ⟨1, .error e, run_imp_read_error 0 seen hread, rfl⟩
        | ok decls =>
          cases hpd : processDecls decls with
          | error e =>
            rw [run_imp_pd_error fuel seen (hre.trans hread) hpd] at h
            injection h with h
            subst h
            exact ⟨1, .error e, run_imp_pd_error 0 seen hread hpd, rfl⟩
          | ok st =>
            rw [run_imp_ok fuel seen (hre.trans hread) hpd] at h
            have hrel₂ : JobRel q
                (.loop st.queue seen st.bindings st.unbinds st.modes decls
                  (entryReads input))
                (.loop st.queue seen st.bindings st.unbinds st.modes decls
                  (entryReads input)) :=
              ⟨rfl, rfl, rfl, rfl, hss, processDecls_queue_sorted hpd, Or.inl rfl⟩
            obtain ⟨f, r, hfr, hrr⟩ := ih _ _ hrel₂ h
            exact ⟨f + 1, r, by rw [run_imp_ok f seen hread hpd]; exact hfr, hrr⟩
    | .loop queue seen bs us ms ds rs, .loop queue2 seen2 bs2 us2 ms2 ds2 rs2 =>
      intro hrel r2 h
      obtain ⟨rfl, rfl, rfl, rfl, hss, hsq, hq2rel⟩ := hrel
      have caseEq : ∀ (queue₀ : List String), SortedQ queue₀ →
          ∀ (dsa : List Decl) (rsa : List String) (dsb : List Decl)
            (rsb : List String) {r3 : Except ParseErr RunOut},
          run fs2 (fuel + 1) (.loop queue₀ seen bs us ms dsb rsb) = some r3 →
          ∃ f r, run fs f (.loop queue₀ seen bs us ms dsa rsa) = some r ∧
            ResultRel r r3 := by
        intro queue₀ hsq₀ dsa rsa dsb rsb r3 h₀
        match queue₀, hsq₀ with
        | [], _ =>
          rw [run_loop_nil_unfold] at h₀
          injection h₀ with h₀
          subst h₀
          exact ⟨1, .ok ⟨⟨bs, us, [], ms⟩, seen, dsa, rsa⟩,
            run_loop_nil_unfold fs 0 seen bs us ms dsa rsa, rfl, rfl⟩
        | p :: rest, hsq₀ =>
          by_cases hp : p ∈ seen
          · rw [run_loop_skip fuel rest bs us ms dsb rsb hp] at h₀
            have hrel₂ : JobRel q (.loop rest seen bs us ms dsa rsa)
                (.loop rest seen bs us ms dsb rsb) :=
              ⟨rfl, rfl, rfl, rfl, hss, (List.pairwise_cons.mp hsq₀).2, Or.inl rfl⟩
            obtain ⟨f, r, hfr, hrr⟩ := ih _ _ hrel₂ h₀
            exact ⟨f + 1, r,
              by rw [run_loop_skip f rest bs us ms dsa rsa hp]; exact hfr, hrr⟩
          · rw [run_loop_cons_unfold, if_neg hp] at h₀
            have hrelImp : JobRel q (.imp (.path p) (qInsert p seen))
                (.imp (.path p) (qInsert p seen)) := by
              refine ⟨rfl, rfl, qInsert_sorted hss p, fun hpq => ?_⟩
              rw [mem_qInsert]
              left
              injection hpq with hpq
              exact hpq.symm
            cases hch : run fs2 fuel (.imp (.path p) (qInsert p seen)) with
            | none => rw [hch] at h₀; cases h₀
            | some rc2 =>
              rw [hch] at h₀
              obtain ⟨f₁, rc, hrc, hrcrel⟩ := ih _ _ hrelImp hch
              cases rc2 with
              | error e =>
                cases rc with
                | error e₀ =>
                  have he : e₀ = e := hrcrel
                  subst he
                  have h₁ : (some (Except.error e₀) :
                      Option (Except ParseErr RunOut)) = some r3 := h₀
                  injection h₁ with h₁
                  subst h₁
                  exact ⟨f₁ + 1, .error e₀,
                    run_loop_child_error rest bs us ms dsa rsa hp hrc, rfl⟩
                | ok _ => exact (hrcrel : False).elim
              | ok child2 =>
                cases rc with
                | error e₀ => exact (hrcrel : False).elim
                | ok child =>
                  obtain ⟨hcfg, hcseen⟩ := hrcrel
                  have h₁ : run fs2 fuel (.loop
                      (child2.cfg.imports.foldl (fun y f => qInsert f y) rest)
                      child2.seen (child2.cfg.bindings.foldl mergeBinding bs)
                      (us ++ child2.cfg.unbinds) (ms ++ child2.cfg.modes)
                      (dsb ++ child2.decls) (rsb ++ child2.reads)) = some r3 := h₀
                  obtain ⟨_L, _U, _M, _R, _, _, _, _, _, _, _, hsortc, _,
                    _, _, _, _⟩ :=
                    run_inv fs f₁ _ _ hrc (qInsert_sorted hss p)
                  have hrel₂ : JobRel q
                      (.loop (child.cfg.imports.foldl (fun y f => qInsert f y) rest)
                        child.seen (child.cfg.bindings.foldl mergeBinding bs)
                        (us ++ child.cfg.unbinds) (ms ++ child.cfg.modes)
                        (dsa ++ child.decls) (rsa ++ child.reads))
                      (.loop (child2.cfg.imports.foldl (fun y f => qInsert f y) rest)
                        child2.seen (child2.cfg.bindings.foldl mergeBinding bs)
                        (us ++ child2.cfg.unbinds) (ms ++ child2.cfg.modes)
                        (dsb ++ child2.decls) (rsb ++ child2.reads)) := by
                    rw [← hcfg, ← hcseen]
                    exact ⟨rfl, rfl, rfl, rfl, hsortc,
                      qInsertFold_sorted (List.pairwise_cons.mp hsq₀).2 _,
                      Or.inl rfl⟩
                  obtain ⟨f₂, r, hr, hrr⟩ := ih _ _ hrel₂ h₁
                  refine ⟨max f₁ f₂ + 1, r, ?_, hrr⟩
                  rw [run_loop_child_ok rest bs us ms dsa rsa hp
                    (run_le_mono (le_max_left f₁ f₂) hrc)]
                  exact run_le_mono (le_max_right f₁ f₂) hr
      rcases hq2rel with rfl | ⟨rfl, hqin⟩
      · exact caseEq queue hsq ds rs ds2 rs2 h
      · match queue, hsq with
        | [], _ =>
          have h₁ : run fs2 (fuel + 1) (.loop [q] seen bs us ms ds2 rs2) =
              some r2 := h
          rw [run_loop_skip fuel [] bs us ms ds2 rs2 hqin] at h₁
          have hrel₂ : JobRel q (.loop [] seen bs us ms ds rs)
              (.loop [] seen bs us ms ds2 rs2) :=
            ⟨rfl, rfl, rfl, rfl, hss, List.Pairwise.nil, Or.inl rfl⟩
          exact ih _ _ hrel₂ h₁
        | x :: rest, hsq =>
          by_cases hqx : q = x
          · have hqq : qInsert q (x :: rest) = x :: rest := by
              rw [qInsert, if_pos hqx]
            rw [hqq] at h
            exact caseEq (x :: rest) hsq ds rs ds2 rs2 h
          · by_cases hlt : q < x
            · have hqq : qInsert q (x :: rest) = q :: x :: rest := by
                rw [qInsert, if_neg hqx, if_pos hlt]
              rw [hqq] at h
              rw [run_loop_skip fuel (x :: rest) bs us ms ds2 rs2 hqin] at h
              exact caseEq (x :: rest) hsq ds rs ds2 rs2 (run_mono fuel _ _ h)
            · have hqq : qInsert q (x :: rest) = x :: qInsert q rest := by
                rw [qInsert, if_neg hqx, if_neg hlt]
              rw [hqq] at h
              have hrest : SortedQ rest := (List.pairwise_cons.mp hsq).2
              by_cases hx : x ∈ seen
              · rw [run_loop_skip fuel (qInsert q rest) bs us ms ds2 rs2 hx] at h
                have hrel₂ : JobRel q (.loop rest seen bs us ms ds rs)
                    (.loop (qInsert q rest) seen bs us ms ds2 rs2) :=
                  ⟨rfl, rfl, rfl, rfl, hss, hrest, Or.inr ⟨rfl, hqin⟩⟩
                obtain ⟨f, r, hfr, hrr⟩ := ih _ _ hrel₂ h
                exact ⟨f + 1, r,
                  by rw [run_loop_skip f rest bs us ms ds rs hx]; exact hfr, hrr⟩
              · rw [run_loop_cons_unfold, if_neg hx] at h
                have hrelImp : JobRel q (.imp (.path x) (qInsert x seen))
                    (.imp (.path x) (qInsert x seen)) := by
                  refine ⟨rfl, rfl, qInsert_sorted hss x, fun _ => ?_⟩
                  rw [mem_qInsert]
                  right
                  exact hqin
                cases hch : run fs2 fuel (.imp (.path x) (qInsert x seen)) with
                | none => rw [hch] at h; cases h
                | some rc2 =>
                  rw [hch] at h
                  obtain ⟨f₁, rc, hrc, hrcrel⟩ := ih _ _ hrelImp hch
                  cases rc2 with
                  | error e =>
                    cases rc with
                    | error e₀ =>
                      have he : e₀ = e := hrcrel
                      subst he
                      have h₁ : (some (Except.error e₀) :
                          Option (Except ParseErr RunOut)) = some r2 := h
                      injection h₁ with h₁
                      subst h₁
                      exact ⟨f₁ + 1, .error e₀,
                        run_loop_child_error rest bs us ms ds rs hx hrc, rfl⟩
                    | ok _ => exact (hrcrel : False).elim
                  | ok child2 =>
                    cases rc with
                    | error e₀ => exact (hrcrel : False).elim
                    | ok child =>
                      obtain ⟨hcfg, hcseen⟩ := hrcrel
                      have h₁ : run fs2 fuel (.loop
                          (child2.cfg.imports.foldl (fun y f => qInsert f y)
                            (qInsert q rest))
                          child2.seen (child2.cfg.bindings.foldl mergeBinding bs)
                          (us ++ child2.cfg.unbinds) (ms ++ child2.cfg.modes)
                          (ds2 ++ child2.decls) (rs2 ++ child2.reads)) =
                          some r2 := h
                      obtain ⟨_L, _U, _M, _R, _, _, _, _, _, _, _, hsortc,
                        hseenc, _, _, _, _⟩ :=
                        run_inv fs f₁ _ _ hrc (qInsert_sorted hss x)
                      have hqchild : q ∈ child.seen := by
                        refine hseenc q ?_
                        rw [mem_qInsert]
                        right
                        exact hqin
                      have hqcomm : child2.cfg.imports.foldl
                          (fun y f => qInsert f y) (qInsert q rest) =
                          qInsert q (child2.cfg.imports.foldl
                            (fun y f => qInsert f y) rest) :=
                        qInsertFold_qInsert_comm hrest q child2.cfg.imports
                      have hrel₂ : JobRel q
                          (.loop (child.cfg.imports.foldl
                              (fun y f => qInsert f y) rest)
                            child.seen (child.cfg.bindings.foldl mergeBinding bs)
                            (us ++ child.cfg.unbinds) (ms ++ child.cfg.modes)
                            (ds ++ child.decls) (rs ++ child.reads))
                          (.loop (child2.cfg.imports.foldl
                              (fun y f => qInsert f y) (qInsert q rest))
                            child2.seen (child2.cfg.bindings.foldl mergeBinding bs)
                            (us ++ child2.cfg.unbinds) (ms ++ child2.cfg.modes)
                            (ds2 ++ child2.decls) (rs2 ++ child2.reads)) := by
                        rw [hqcomm, ← hcfg, ← hcseen]
                        exact ⟨rfl, rfl, rfl, rfl, hsortc,
                          qInsertFold_sorted hrest _, Or.inr ⟨rfl, hqchild⟩⟩
                      obtain ⟨f₂, r, hr, hrr⟩ := ih _ _ hrel₂ h₁
                      refine ⟨max f₁ f₂ + 1, r, ?_, hrr⟩
                      rw [run_loop_child_ok rest bs us ms ds rs hx
                        (run_le_mono (le_max_left f₁ f₂) hrc)]
                      exact run_le_mono (le_max_right f₁ f₂) hr


/-- `SwhkdParser::from` results related across the self-include
surgery: identical errors, or identical final configuration. -/
def FromRel : Except ParseErr ParseOut → Except ParseErr ParseOut → Prop
  | .error e, .error e2 => e = e2
  | .ok o, .ok o2 => o.cfg = o2.cfg
  | _, _ => False

/-- Adding a self-include to a non-root file does not change the final
configuration (nor the error, if any). -/
theorem parserFrom_surgery {fs fs2 : Fs} {q : String} {d₁ d₂ : List Decl}
    (hq : readInput fs (.path q) = .ok (d₁ ++ d₂))
    (hq2 : readInput fs2 (.path q) = .ok (d₁ ++ .imp [q] :: d₂))
    (hne : ∀ p, p ≠ q → readInput fs2 (.path p) = readInput fs (.path p))
    {input : ParserInput} (hroot : input ≠ .path q)
    {f f2 : Nat} {r r2 : Except ParseErr ParseOut}
    (h : parserFrom fs f input = some r)
    (h2 : parserFrom fs2 f2 input = some r2) : FromRel r r2 := by
  unfold parserFrom asImport at h h2
  cases ha : run fs f (.imp input []) with
  | none => rw [ha] at h; cases h
  | some ra =>
    rw [ha] at h
    cases ha2 : run fs2 f2 (.imp input []) with
    | none => rw [ha2] at h2; cases h2
    | some ra2 =>
      rw [ha2] at h2
      obtain ⟨f₀, r₀, hf₀, hrel₀⟩ :=
        run_surgery hq hq2 hne f2 (.imp input []) (.imp input [])
          ⟨rfl, rfl, List.Pairwise.nil, fun hc => absurd hc hroot⟩ ha2
      have hra : ra = r₀ := run_deterministic ha hf₀
      subst hra
      cases ra with
      | error e =>
        cases ra2 with
        | error e2 =>
          have he : e = e2 := hrel₀
          have hr1 : (some (Except.error e) :
              Option (Except ParseErr ParseOut)) = some r := h
          have hr2 : (some (Except.error e2) :
              Option (Except ParseErr ParseOut)) = some r2 := h2
          injection hr1 with hr1
          injection hr2 with hr2
          subst hr1
          subst hr2
          exact he
        | ok _ => exact (hrel₀ : False).elim
      | ok out =>
        cases ra2 with
        | error _ => exact (hrel₀ : False).elim
        | ok out2 =>
          obtain ⟨hcfg, hseen⟩ := hrel₀
          have hr1 : (some (Except.ok
              (⟨⟨out.cfg.unbinds.foldl removeFirstDef out.cfg.bindings,
                out.cfg.unbinds, out.seen, out.cfg.modes⟩,
                out.decls, out.reads⟩ : ParseOut)) :
              Option (Except ParseErr ParseOut)) = some r := h
          have hr2 : (some (Except.ok
              (⟨⟨out2.cfg.unbinds.foldl removeFirstDef out2.cfg.bindings,
                out2.cfg.unbinds, out2.seen, out2.cfg.modes⟩,
                out2.decls, out2.reads⟩ : ParseOut)) :
              Option (Except ParseErr ParseOut)) = some r2 := h2
          injection hr1 with hr1
          injection hr2 with hr2
          subst hr1
          subst hr2
          show (⟨_, _, _, _⟩ : Config) = ⟨_, _, _, _⟩
          rw [hcfg, hseen]

/-- The global seen set returned as the import list is duplicate-free,
and the read trace is the entry read followed by pairwise-distinct
paths, all of which are recorded in the import list. -/
theorem parserFrom_imports_reads {fs : Fs} {fuel : Nat} {input : ParserInput}
    {out : ParseOut} (h : parserFrom fs fuel input = some (.ok out)) :
    out.cfg.imports.Nodup ∧
    ∃ R, out.reads = entryReads input ++ R ∧ R.Nodup ∧
      ∀ p ∈ R, p ∈ out.cfg.imports := by
  unfold parserFrom asImport at h
  cases ha : run fs fuel (.imp input []) with
  | none => rw [ha] at h; cases h
  | some ra =>
    rw [ha] at h
    cases ra with
    | error e =>
      have h1 : (some (Except.error e) :
          Option (Except ParseErr ParseOut)) = some (.ok out) := h
      injection h1 with h1
      cases h1
    | ok o =>
      have h1 : (some (Except.ok
          (⟨⟨o.cfg.unbinds.foldl removeFirstDef o.cfg.bindings,
            o.cfg.unbinds, o.seen, o.cfg.modes⟩,
            o.decls, o.reads⟩ : ParseOut)) :
          Option (Except ParseErr ParseOut)) = some (.ok out) := h
      injection h1 with h1
      injection h1 with h1
      subst h1
      obtain ⟨_L, _U, _M, R, _, _, _, _, _, _, _, hsort, _, hreads, hRnd, _,
        hRseen⟩ := run_inv fs fuel _ _ ha List.Pairwise.nil
      exact ⟨hsort.nodup, R, hreads, hRnd, hRseen⟩


/-! ### Concrete inputs for witnesses and counterexamples -/

/-- The definition produced by the bare key `a`. -/
def defA : Definition := ⟨[], ⟨"KEY_A", KeyAttribute.none⟩⟩

/-- A binding declaration `a = <c>`. -/
def bindA (c : String) : BindingDecl :=
  ⟨[.ingest (.keyNormal [.keyText "a"]), .command [.standalone c]], "sA"⟩

def c1decls : List Decl := [.binding (bindA "1"), .binding (bindA "2")]

def c1L : List Binding := [⟨defA, "1", []⟩, ⟨defA, "2", []⟩]

def c1out : ParseOut := ⟨⟨[⟨defA, "2", []⟩], [], [], []⟩, c1decls, []⟩

def c3decls : List Decl := c1decls ++ [.unbind [.keyNormal [.keyText "a"]]]

def c3out : ParseOut := ⟨⟨[], [defA], [], []⟩, c3decls, []⟩

def b4 : BindingDecl :=
  ⟨[.ingest (.shorthand [.keyInShorthand [.keyText "a"],
      .keyInShorthand [.keyText "b"]]), .command [.standalone "x"]], "s4"⟩

def st4 : BState :=
  ⟨[["x"]], [], [],
   ⟨[], [⟨"KEY_A", KeyAttribute.none⟩, ⟨"KEY_B", KeyAttribute.none⟩]⟩⟩

def b7 : BindingDecl :=
  ⟨[.ingest (.keyNormal [.keyText "a"]),
    .command [.standalone "x", .doubleAmpersand "&&", .doubleAmpersand "&&",
      .standalone "y"]], "s7"⟩

def st7 : BState :=
  ⟨[["x"], ["&&"], ["y"]], [], [], ⟨[], [⟨"KEY_A", KeyAttribute.none⟩]⟩⟩

def b7c : BindingDecl :=
  ⟨[.ingest (.keyNormal [.keyText "a"]),
    .command [.standalone "firefox ", .doubleAmpersand "&&"]], "s7c"⟩

def b8 : BindingDecl :=
  ⟨[.ingest (.keyNormal [.keyText "a"]),
    .command [.enterMode "m", .escapeMode, .escapeMode, .standalone "x"]], "s8"⟩

def c10cs : List ModeComponent :=
  [.modename "m", .binding (bindA "1"), .unbind [.keyNormal [.keyText "a"]]]

def c10m : Mode := ⟨"m", false, false, [⟨defA, "1", []⟩], [defA]⟩

/-! ### Claim C5 -/

/-- C5 (amended): for every import graph, including cyclic ones,
parsing terminates with enough fuel; a successfully returned
configuration's import list has at most one entry per distinct path
and the read trace is the entry read followed by pairwise-distinct
paths recorded in the import list (so only the never-pre-seeded root
path can be read twice); pending queues stay sorted, so the processed
path is always the minimum of the queue; and adding a self-include to
a non-root file yields the same configuration (and the same error, if
any), while the root-file case is refuted separately. -/
theorem import_loop_properties :
    (∀ (fs : Fs) (input : ParserInput),
      ∃ fuel r, parserFrom fs fuel input = some r) ∧
    (∀ (fs : Fs) (fuel : Nat) (input : ParserInput) (out : ParseOut),
      parserFrom fs fuel input = some (.ok out) →
      out.cfg.imports.Nodup ∧
      ∃ R, out.reads = entryReads input ++ R ∧ R.Nodup ∧
        ∀ p ∈ R, p ∈ out.cfg.imports) ∧
    (∀ (ds : List Decl) (st : PState), processDecls ds = .ok st →
      SortedQ st.queue) ∧
    (∀ (l rest : List String), SortedQ rest →
      SortedQ (l.foldl (fun y f => qInsert f y) rest)) ∧
    (∀ (p : String) (rest : List String), SortedQ (p :: rest) →
      ∀ x ∈ rest, p < x) ∧
    (∀ (fs fs2 : Fs) (q : String) (d₁ d₂ : List Decl) (input : ParserInput),
      (∀ p, p ≠ q → readInput fs2 (.path p) = readInput fs (.path p)) →
      readInput fs (.path q) = .ok (d₁ ++ d₂) →
      readInput fs2 (.path q) = .ok (d₁ ++ .imp [q] :: d₂) →
      input ≠ .path q →
      ∀ (f f2 : Nat) (r r2 : Except ParseErr ParseOut),
        parserFrom fs f input = some r → parserFrom fs2 f2 input = some r2 →
        FromRel r r2) :=
  ⟨fun fs input => parserFrom_terminates fs input,
   fun _ _ _ _ h => parserFrom_imports_reads h,
   fun _ _ h => processDecls_queue_sorted h,
   fun l _ h => qInsertFold_sorted h l,
   fun _ _ h x hx => (List.pairwise_cons.mp h).1 x hx,
   fun _ _ _ _ _ _ hne hq hq2 hroot _ _ _ _ h h2 =>
     parserFrom_surgery hq hq2 hne hroot h h2⟩

theorem import_loop_properties_witness :
    (∃ fuel r, parserFrom [("r", [Decl.imp ["r"]])] fuel (.path "r") = some r) ∧
    FromRel
      (.ok ⟨⟨[], [], ["a"], []⟩, [Decl.imp ["a"]], ["r", "a"]⟩)
      (.ok ⟨⟨[], [], ["a"], []⟩, [Decl.imp ["a"], Decl.imp ["a"]], ["r", "a"]⟩) := by
  constructor
  · exact import_loop_properties.1 [("r", [Decl.imp ["r"]])] (.path "r")
  · exact import_loop_properties.2.2.2.2.2
      [("r", [Decl.imp ["a"]]), ("a", ([] : List Decl))]
      [("r", [Decl.imp ["a"]]), ("a", [Decl.imp ["a"]])]
      "a" [] [] (.path "r")
      (by
        intro p hp
        simp only [readInput, List.find?]
        by_cases hr : ("r" : String) = p
        · simp [hr]
        · have h1 : (("r" : String) = p) = False := eq_false hr
          have h2 : (("a" : String) = p) = False := eq_false (fun h => hp h.symm)
          simp [h1, h2])
      (by decide) (by decide) (by decide) 5 5
      (.ok ⟨⟨[], [], ["a"], []⟩, [Decl.imp ["a"]], ["r", "a"]⟩)
      (.ok ⟨⟨[], [], ["a"], []⟩, [Decl.imp ["a"], Decl.imp ["a"]], ["r", "a"]⟩)
      (by decide) (by decide)

theorem import_self_include_counterexample :
    parserFrom [("r", [Decl.imp ["r"]])] 5 (.path "r") =
      some (.ok ⟨⟨[], [], ["r"], []⟩, [Decl.imp ["r"], Decl.imp ["r"]],
        ["r", "r"]⟩) ∧
    parserFrom [("r", ([] : List Decl))] 5 (.path "r") =
      some (.ok ⟨⟨[], [], [], []⟩, [], ["r"]⟩) ∧
    (⟨[], [], ["r"], []⟩ : Config) ≠ ⟨[], [], [], []⟩ := by decide

/-! ### Witnesses and counterexamples for the other claims -/

theorem duplicate_definitions_witness :
    (c1out.cfg.bindings.filter (fun b => b.definition = defA)).length = 1 ∧
    (∀ b ∈ c1out.cfg.bindings, b.definition = defA →
      ∃ c, lastOcc c1L defA = some c ∧ b.command = c.command ∧
        b.mode_instructions = c.mode_instructions) ∧
    defsOf (c1L.foldl mergeBinding []) = dkf (defsOf c1L) ∧
    NodupDefs c1out.cfg.bindings :=
  @duplicate_definitions_last_write_wins [] 2 (.raw c1decls) c1out c1L defA
    (by decide) (by decide) (by decide) (by decide)

theorem duplicate_definitions_counterexample :
    parserFrom [] 2 (.raw c3decls) = some (.ok c3out) ∧
    declBindings c3decls = .ok c1L ∧
    2 ≤ (c1L.filter (fun b => b.definition = defA)).length ∧
    (c3out.cfg.bindings.filter (fun b => b.definition = defA)).length = 0 := by
  decide

theorem omission_free_witness :
    (∀ b ∈ c1out.cfg.bindings, Modifier.Omission ∉ b.definition.modifiers) ∧
    (∀ m ∈ c1out.cfg.modes, ∀ b ∈ m.bindings,
      Modifier.Omission ∉ b.definition.modifiers) :=
  @final_bindings_omission_free [] 2 (.raw c1decls) c1out (by decide)

theorem root_unbinds_witness :
    c3out.cfg.unbinds = [defA] ∧
    ∀ b ∈ c3out.cfg.bindings, b.definition ≠ defA :=
  @root_unbinds_remove_bindings [] 2 (.raw c3decls) c3out [defA] defA
    (by decide) (by decide) (by decide)

theorem parity_check_witness :
    (bindingParser b4 = .error (.grammar (parityMsg 2 1) b4.span) ↔ 2 ≠ 1) ∧
    (2 = 1 → bindingParser b4 = .ok
      ((List.zipWith (fun d c => Binding.mk d c (st4.enters ++ st4.escapes))
        (compile st4.uncompiled)
        ((multiCartesianProduct st4.comm).map String.join)).map stripOmission)) :=
  @parity_check_iff b4 st4 2 1 (by decide) (by decide) (by decide)

theorem parity_message_counterexample :
    bindingParser b4 = .error (.grammar (parityMsg 2 1) "s4") ∧
    parityMsg 2 1 ≠ "binding variants 2 does not equal command variants 1" := by
  decide

theorem key_attribute_witness :
    (⟨"a", ⟨true, false⟩⟩ : KeyRepr).attr =
      ⟨decide (KeyTokenPart.send ∈ [KeyTokenPart.send, KeyTokenPart.keyText "a"]),
       decide (KeyTokenPart.onRelease ∈
         [KeyTokenPart.send, KeyTokenPart.keyText "a"])⟩ ∧
    expandKeys [KeyTokenPart.send, KeyTokenPart.keyText "a"]
        [KeyTokenPart.keyText "b"] "s6" =
      .error (.grammar "range bounds must have the same timing attributes" "s6") :=
  ⟨key_attribute_from_prefixes.1 [KeyTokenPart.send, KeyTokenPart.keyText "a"]
      ⟨"a", ⟨true, false⟩⟩ (by decide),
   key_attribute_from_prefixes.2.2.2.1
      [KeyTokenPart.send, KeyTokenPart.keyText "a"] [KeyTokenPart.keyText "b"]
      ⟨"a", ⟨true, false⟩⟩ ⟨"b", ⟨false, false⟩⟩ "s6"
      (by decide) (by decide) (by decide)⟩

theorem range_attribute_counterexample :
    ingest DefinitionUncompiled.default
      (.shorthand [.keyRange [KeyTokenPart.send, KeyTokenPart.keyText "a"]
        [KeyTokenPart.send, KeyTokenPart.keyText "b"] "s"]) =
      .ok ⟨[], [⟨"KEY_A", KeyAttribute.none⟩, ⟨"KEY_B", KeyAttribute.none⟩]⟩ ∧
    parse_key [KeyTokenPart.send, KeyTokenPart.keyText "a"] =
      .ok ⟨"a", ⟨true, false⟩⟩ ∧
    (⟨true, false⟩ : KeyAttribute) ≠ KeyAttribute.none := by decide

theorem command_join_witness :
    [Binding.mk defA "x&&y" []].map (fun x => x.command) =
      (multiCartesianProduct st7.comm).map String.join ∧
    processCommandSub ⟨[["&&"]], [], [], DefinitionUncompiled.default⟩
        (.doubleAmpersand "&&") =
      .ok ⟨[["&&"]], [], [], DefinitionUncompiled.default⟩ :=
  ⟨command_join_and_collapse.1 b7 st7 [Binding.mk defA "x&&y" []]
      (by decide) (by decide),
   (command_join_and_collapse.2 ⟨[["&&"]], [], [], DefinitionUncompiled.default⟩
      "&&").1 (by decide)⟩

theorem trailing_ampersand_counterexample :
    bindingParser b7c = .ok [Binding.mk defA "firefox &&" []] ∧
    bindingParser b7c ≠ .ok [Binding.mk defA "firefox " []] := by decide

theorem mode_instructions_witness :
    (Binding.mk defA "x" [ModeInstruction.escape]).mode_instructions =
      (specModeFold (modeEvents b8.components)).1 ++
      (specModeFold (modeEvents b8.components)).2 :=
  @mode_instructions_enters_escapes b8
    [Binding.mk defA "x" [ModeInstruction.escape]] (by decide)
    (Binding.mk defA "x" [ModeInstruction.escape]) (by decide)

theorem unescape_witness :
    unescape (String.mk ['\\', '{']) = .ok (String.singleton '{') ∧
    unescape (String.mk ['a', 'b', 'c']) = .ok (String.mk ['a', 'b', 'c']) :=
  ⟨unescape_behavior.1 '{' (by decide),
   unescape_behavior.2.2 ['a', 'b', 'c']
     (fun c h => by simp at h)⟩

theorem unescape_counterexample :
    unescape (String.mk ['\\', '|']) =
      .error (.panicked "unescape: assertion failed on escaped character") ∧
    unescape (String.mk ['\\', '|']) ≠ .ok (String.mk ['|']) := by decide

theorem mode_blocks_witness :
    (∃ B Un, modeComponentBindings c10cs = .ok B ∧
      modeComponentUnbinds c10cs = .ok Un ∧
      c10m.bindings = B ∧ c10m.unbinds = Un) ∧
    (∃ M, declModes c1out.decls = .ok M ∧ c1out.cfg.modes = M) :=
  ⟨mode_blocks_no_merge_no_unbind.1 c10cs c10m (by decide),
   mode_blocks_no_merge_no_unbind.2 [] 2 (.raw c1decls) c1out (by decide)⟩


end Swhkd
